import Mathlib

/-!
# Verification of the encoda codec-dispatch and codec core

This file gives a shallow embedding, in Lean 4, of the parts of the
encoda document-conversion library that its specification makes claims
about:

* the codec registry and matcher (`match`, `encode` in the top-level
  module),
* the Markdown codec (`decodeArticle`, `encodeParagraph`,
  `decodeCodeChunk` / `encodeCodeChunk`, the primitive generic
  extensions `!true` / `!false` / `!boolean` / `!number` / `!array` and
  `stringifyExtensions`),
* the JATS codec's deferred citation population
  (`encodeCite` / `encodeReference` / `populateBibrContent`).

External third-party libraries used by the source (the remark Markdown
parser/stringifier, `js-yaml`, `JSON5`, `mime`, `parseFloat`) are treated
as black boxes, exactly as the specification prescribes: where one of
their results matters to a claim, the corresponding function is taken as
a parameter and the claim's theorem assumes only the documented
behaviour of that library on the concrete inputs that the source passes
to it.
-/

namespace Encoda

/-! ## JavaScript string helpers

Small models of the JavaScript/Node string and path operations the
source uses.  They are restricted to ASCII whitespace; the source inputs
relevant to the claims are ASCII. -/

/-- ASCII whitespace characters recognised by JavaScript's `\s` /
`String.prototype.trim` (restricted to ASCII). -/
def jsWsChar (c : Char) : Bool :=
  c = ' ' || c = '\t' || c = '\n' || c = '\r' || c = '\x0b' || c = '\x0c'

/-- JavaScript `String.prototype.trim` on a list of characters. -/
def jsTrimList (l : List Char) : List Char :=
  ((l.dropWhile jsWsChar).reverse.dropWhile jsWsChar).reverse

/-- JavaScript `String.prototype.trim` (ASCII whitespace). -/
def jsTrim (s : String) : String :=
  ⟨jsTrimList s.data⟩

/-- Truthiness of an optional JavaScript string: `undefined` and the
empty string are falsy. -/
def optTruthy : Option String → Bool
  | none => false
  | some s => s ≠ ""

/-- `String.prototype.includes` for a single character. -/
def strContains (s : String) (c : Char) : Bool :=
  s.data.contains c

/-- `String.prototype.toLowerCase` (character-wise). -/
def strToLower (s : String) : String :=
  ⟨s.data.map Char.toLower⟩

/-- Node's `path.basename`: the substring after the last `/`, with
trailing slashes removed first. -/
def jsBasename (p : String) : String :=
  let q := p.data.reverse.dropWhile (fun c => c = '/')
  ⟨(q.takeWhile (fun c => c ≠ '/')).reverse⟩

/-- Node's `path.extname`: the suffix of the basename from its last
`.`, or `""` when the basename has no dot or only a leading dot (the
all-dots names `.` and `..` are outside the model). -/
def jsExtname (p : String) : String :=
  let b := (jsBasename p).data
  let revExt := b.reverse.takeWhile (fun c => c ≠ '.')
  if revExt.length = b.length then ""
  else if revExt.length = b.length - 1 then ""
  else ⟨'.' :: revExt.reverse⟩

/-- The regex `/^[a-z]+:\/\//` used by `match` to detect a URI scheme. -/
def hasUriScheme (s : String) : Bool :=
  let letters := s.data.takeWhile (fun ch => ch.isLower)
  letters.length > 0 && "://".data.isPrefixOf (s.data.drop letters.length)

/-- The regex `/^https?:\/\//` registered in `codecRegexes` for the
`http` codec. -/
def isHttpUrl (s : String) : Bool :=
  "http://".data.isPrefixOf s.data || "https://".data.isPrefixOf s.data

/-! ## The codec registry and matcher

Shallow embedding of the top-level `match` function.  A codec module is
represented by the metadata that `match` consults (`fileNames`,
`extNames`, `mediaTypes`, `sniff`); dynamic module loading and the
file-system/`mime` lookups are effects of the host environment and are
represented by a `MatchEnv`. -/

/-- The matcher-visible metadata of a codec (`Codec` class fields).
All fields are optional, as in the source, where a codec class need not
declare them. -/
structure CodecInfo where
  fileNames : Option (List String) := none
  extNames : Option (List String) := none
  mediaTypes : Option (List String) := none
  sniff : Option (String → Bool) := none

/-- Result of `await import('./codecs/' + name)` combined with
`getCodec`: the import may throw (module missing / failed to load), or
succeed but export no concrete `Codec` subclass, or yield a codec. -/
inductive LoadResult where
  | throws
  | noCodec
  | ok (c : CodecInfo)

/-- The environment a call to `match` runs in: lazy module loading,
`vfile.isPath` and `mime.getType`. -/
structure MatchEnv where
  load : String → LoadResult
  isPath : String → Bool
  mimeType : String → Option String

/-- `codecList` from the source: the full ordered codec list scanned by
`match`; more generic formats last. -/
def codecList : List String :=
  ["http", "dir", "dar", "csv", "ods", "tdp", "xlsx", "docx", "gdoc",
   "html", "ipynb", "jats", "jats-pandoc", "latex", "md", "odt", "pdf",
   "txt", "xmd", "dmagic", "rpng", "yaml", "pandoc", "json5", "jsonld",
   "json"]

/-- The `fileName` / `extName` / `mediaType` candidate keys that `match`
resolves from its `content` / `format` / `isOutput` arguments before
scanning codecs (lines 80–114 of the source). -/
def resolveKeys (env : MatchEnv) (content format : Option String)
    (isOutput : Bool) : Option String × Option String × Option String :=
  let pathKeys : Option String × Option String × Option String :=
    match content with
    | some c =>
      if c ≠ "" ∧ (env.isPath c ∨ isOutput) then
        (some (jsBasename c), some (strToLower ((jsExtname c).drop 1)),
         env.mimeType c)
      else (none, none, none)
    | none => (none, none, none)
  let (fileName, extName, mediaType) := pathKeys
  if optTruthy format then
    let f := format.getD ""
    if strContains f '/' then (fileName, extName, some f)
    else (fileName, some f, env.mimeType f)
  else
    match content with
    | some c =>
      if c ≠ "" ∧ hasUriScheme c then
        if isHttpUrl c then (fileName, some "http", mediaType)
        else (fileName, extName, mediaType)
      else (fileName, extName, mediaType)
    | none => (fileName, extName, mediaType)

/-- Whether a codec matches the resolved keys and content: the four
criteria tested, in source order, inside the scan loop (`fileName`
membership, `extName` membership, `mediaType` membership, then content
sniffing, the latter only when `content` is truthy and the codec
declares a `sniff`). -/
def codecMatches (c : CodecInfo) (fileName extName mediaType content : Option String) :
    Bool :=
  (optTruthy fileName && (c.fileNames.map (fun l => l.contains (fileName.getD ""))).getD false) ||
  (optTruthy extName && (c.extNames.map (fun l => l.contains (extName.getD ""))).getD false) ||
  (optTruthy mediaType && (c.mediaTypes.map (fun l => l.contains (mediaType.getD ""))).getD false) ||
  (optTruthy content &&
    (c.sniff.map (fun sn => sn (content.getD ""))).getD false)

/-- The scan loop of `match` over `codecList` (source lines 144–170).
The accumulator is the mutable `codec` variable: a failed import leaves
it at its previous (stale) value, a module without a codec export resets
it to `undefined`, and `if (!codec) break` aborts the scan — falling
through to the "no codec found" error — whenever it is `undefined`
after the load step. -/
def scanCodecs (env : MatchEnv)
    (fileName extName mediaType content : Option String) :
    List String → Option CodecInfo → Option CodecInfo
  | [], _ => none
  | name :: rest, codec =>
    let codec' : Option CodecInfo :=
      match env.load name with
      | .throws => codec
      | .noCodec => none
      | .ok c => some c
    match codec' with
    | none => none
    | some c =>
      if codecMatches c fileName extName mediaType content then some c
      else scanCodecs env fileName extName mediaType content rest (some c)

/-- The error message thrown when `match` exhausts all candidates
(source lines 172–175): it embeds the supplied content and/or format. -/
def noCodecMessage (content format : Option String) : String :=
  "No codec could be found"
    ++ (if optTruthy content then " for content \"" ++ content.getD "" ++ "\"" else "")
    ++ (if optTruthy format then " for format \"" ++ format.getD "" ++ "\"" else "")
    ++ "."

/-- The module name used by the fast path `import('./codecs/' + extName)`:
when `extName` is `undefined`, JavaScript template interpolation yields
the (nonexistent) module name `undefined`. -/
def fastKey (extName : Option String) : String :=
  extName.getD "undefined"

/-- Shallow embedding of `match(content?, format?, isOutput)`:
resolve candidate keys, try the fast path (a codec module named exactly
after the resolved extension name, returned immediately when it loads),
then scan `codecList`; throw a "no codec found" error when everything
fails. -/
def matchCodec (env : MatchEnv) (content format : Option String)
    (isOutput : Bool := false) : Except String CodecInfo :=
  let (fileName, extName, mediaType) := resolveKeys env content format isOutput
  let fast : Option CodecInfo :=
    match env.load (fastKey extName) with
    | .ok c => some c
    | _ => none
  match fast with
  | some c => .ok c
  | none =>
    match scanCodecs env fileName extName mediaType content codecList none with
    | some c => .ok c
    | none => .error (noCodecMessage content format)

/-- The error message of `encode` when neither `filePath` nor `format`
is truthy. -/
def encodePreconditionMessage : String :=
  "At least one of \"filePath\" or \"format\" option must be provided"

/-- Shallow embedding of the top-level `encode(node, options)` up to
codec selection: it throws when neither option is truthy (JavaScript
`!(filePath || format)`), and otherwise delegates to
`match(filePath, format, true)`.  The subsequent `codec.encode(node,
options)` call is codec-specific and not part of this model. -/
def encodeSelect (env : MatchEnv) (filePath format : Option String) :
    Except String CodecInfo :=
  if ¬ (optTruthy filePath ∨ optTruthy format) then
    .error encodePreconditionMessage
  else matchCodec env filePath format true

/-! ## The canonical Node model (sub-language)

The Stencila Node model restricted to the node types that the claims
exercise.  `str` is the `Text` node type (plain `string` in the source),
`nullV` / `bool` / `num` / `arr` / `obj` are the raw primitives, and the
remaining constructors are the corresponding composite node types.
JavaScript numbers are modelled as rationals. -/

inductive SNode where
  | str (s : String)
  | nullV
  | bool (b : Bool)
  | num (q : Rat)
  | arr (xs : List SNode)
  | obj (fields : List (String × SNode))
  | cite (target : String) (content : List SNode)
  | para (content : List SNode)
  | heading (depth : Nat) (content : List SNode)
  | thematicBreak
  | codeBlock (text : String) (programmingLanguage : Option String)
      (meta : Option (List (String × String)))

/-- `stencila.nodeType` restricted to the modelled sub-language. -/
def SNode.nodeType : SNode → String
  | .str _ => "Text"
  | .nullV => "Null"
  | .bool _ => "Boolean"
  | .num _ => "Number"
  | .arr _ => "Array"
  | .obj _ => "Object"
  | .cite _ _ => "Cite"
  | .para _ => "Paragraph"
  | .heading _ _ => "Heading"
  | .thematicBreak => "ThematicBreak"
  | .codeBlock _ _ _ => "CodeBlock"

/-- `stencila.isBlockContent` restricted to the modelled sub-language:
`Paragraph`, `Heading`, `ThematicBreak` and `CodeBlock` are
block content, the primitives and inline node types are not. -/
def SNode.isBlockContent : SNode → Bool
  | .para _ => true
  | .heading _ _ => true
  | .thematicBreak => true
  | .codeBlock _ _ _ => true
  | _ => false

/-! ## The Markdown codec

The remark parser and stringifier are external black boxes; what is
modelled is the bidirectional mapping between the MDAST tree shape and
the Node model, which is where all the claimed behaviour lives.  An
MDAST tree is `MdNode`; the `yaml` front-matter node carries the result
of parsing its YAML text with the external `js-yaml` library (only a
`title` entry is ever consulted by the claims, so the modelled front
matter records just that). -/

/-- Parsed YAML front matter.  `title = some t` means the mapping has a
`title` key with (string) value `t`. -/
structure FrontMatter where
  title : Option String := none
deriving DecidableEq

/-- A generic-extension MDAST node as produced by
`remark-generic-extensions` and consumed/produced by the codec:
`!name[content](argument){properties}` inline, or the fenced block
form.  `block` distinguishes `block-extension` from `inline-extension`. -/
structure MdExtension where
  block : Bool := false
  name : String
  content : Option String := none
  argument : Option String := none
  properties : Option (List (String × String)) := none
deriving DecidableEq

/-- MDAST nodes, restricted to the node types the claims exercise.
A `code` node carries its raw info string `metaStr` (MDAST `meta`) and
the metadata dictionary `hProps` that `remark-attr` parses into
`data.hProperties`. -/
inductive MdNode where
  | yaml (fm : FrontMatter)
  | heading (depth : Nat) (children : List MdNode)
  | paragraph (children : List MdNode)
  | text (value : String)
  | thematicBreak
  | code (value : String) (lang : Option String) (metaStr : Option String)
      (hProps : Option (List (String × String)))
  | html (value : String)
  | ext (e : MdExtension)

/-- The external JavaScript libraries and builtins that the Markdown
codec calls out to, taken as parameters of the model.  Claims only ever
assume their documented behaviour on the concrete inputs in question. -/
structure JsLibs where
  parseFloat : String → Rat
  numToString : Rat → String
  json5ParseArr : String → List SNode
  json5ParseObj : String → List (String × SNode)
  json5Stringify : SNode → String
  htmlDecode : String → Option SNode

/-- The replacement `s.replace(whiteSpaceRegEx, '$1 ')` performed by
`decodeText` / `encodeString`, where `whiteSpaceRegEx` is
`/(^|[^\n\s])[\n]+\s*(?![\n])/g`: a newline run (plus following
whitespace) directly after the string start or a non-whitespace
character collapses to a single space.  `canMatch` records whether the
group `(^|[^\n\s])` can match at the current position. -/
def collapseNlAux (swallow canMatch : Bool) : List Char → List Char
  | [] => []
  | c :: rest =>
    if swallow then
      if jsWsChar c then collapseNlAux true false rest
      else c :: collapseNlAux false (!jsWsChar c) rest
    else
      if c = '\n' then
        if canMatch then ' ' :: collapseNlAux true false rest
        else '\n' :: collapseNlAux false false rest
      else c :: collapseNlAux false (!jsWsChar c) rest

/-- String version of `collapseNlAux`; at the string start the `^`
alternative of the group can match.  `swallow` starts off: no match is
in progress. -/
def collapseNl (s : String) : String :=
  ⟨collapseNlAux false true s.data⟩

/-- `decodeBoolean`: `!true` / `!false` decode by name; `!boolean`
decodes its argument, falling back to its content, falling back to
`'true'`, and yields `true` exactly for `'true'` and `'1'`. -/
def decodeBoolean (e : MdExtension) : Bool :=
  match e.name with
  | "true" => true
  | "false" => false
  | _ =>
    let value := e.argument.getD (e.content.getD "true")
    value = "true" || value = "1"

/-- `decodeNumber`: `parseFloat(ext.argument ?? ext.content ?? '0')`. -/
def decodeNumber (js : JsLibs) (e : MdExtension) : Rat :=
  js.parseFloat (e.argument.getD (e.content.getD "0"))

/-- `decodeArray`: `JSON5.parse('[' + (ext.argument ?? ext.content ?? '') + ']')`. -/
def decodeArray (js : JsLibs) (e : MdExtension) : List SNode :=
  js.json5ParseArr ("[" ++ e.argument.getD (e.content.getD "") ++ "]")

/-- `decodeObject`: non-empty extension properties win; otherwise
`JSON5.parse('{' + (ext.argument ?? ext.content) + '}')` (template
interpolation renders a missing argument and content as the text
`undefined`). -/
def decodeObject (js : JsLibs) (e : MdExtension) : List (String × SNode) :=
  match e.properties with
  | some props =>
    if props ≠ [] then props.map (fun kv => (kv.1, SNode.str kv.2))
    else js.json5ParseObj ("\x7b" ++ e.argument.getD (e.content.getD "undefined") ++ "\x7d")
  | none => js.json5ParseObj ("\x7b" ++ e.argument.getD (e.content.getD "undefined") ++ "\x7d")

mutual

/-- `decodeNode`: dispatch from an MDAST node to a Stencila node.
An MDAST type with no decoder (here: a stray `yaml` node, or an
extension name outside the primitive ones) logs a warning and decodes
to the empty string.  The four rich extensions (`chunk`, `figure`,
`quote`, `include`) re-parse their text content through the external
Markdown parser; their node-level logic is modelled separately
(`decodeCodeChunkFromNodes` below), so here they take the
default-string branch of the modelled sub-language.  `html` nodes
delegate to the HTML codec (`htmlDecode`), decoding to the empty string
when that yields nothing. -/
def mdDecodeNode (js : JsLibs) : MdNode → SNode
  | .text v => .str (collapseNl v)
  | .paragraph cs => .para (mdDecodeNodes js cs)
  | .heading d cs => .heading d (mdDecodeNodes js cs)
  | .thematicBreak => .thematicBreak
  | .code v lang metaStr hProps =>
    .codeBlock v (if optTruthy lang then lang else none)
      (if optTruthy metaStr && hProps.isSome then hProps else none)
  | .yaml _ => .str ""
  | .html v => (js.htmlDecode v).getD (.str "")
  | .ext e =>
    match e.name with
    | "null" => .nullV
    | "boolean" => .bool (decodeBoolean e)
    | "true" => .bool (decodeBoolean e)
    | "false" => .bool (decodeBoolean e)
    | "number" => .num (decodeNumber js e)
    | "array" => .arr (decodeArray js e)
    | "object" => .obj (decodeObject js e)
    | _ => .str ""

/-- Decode a list of MDAST children (`children.map(decodeNode)`). -/
def mdDecodeNodes (js : JsLibs) : List MdNode → List SNode
  | [] => []
  | n :: ns => mdDecodeNode js n :: mdDecodeNodes js ns

end

/-- An `Article.title` value: either a plain string or inline content
(the H1 branch of `decodeArticle` stores the heading's decoded children
when they are not a single string). -/
inductive TitleV where
  | s (t : String)
  | ns (nodes : List SNode)

/-- The result of `decodeArticle` restricted to the fields the claims
consult.  Front-matter fields other than `title` are spread into the
article unchanged and are not modelled. -/
structure MdArticle where
  title : Option TitleV
  content : List SNode

/-- The H1-derived title: the heading's decoded inline content,
collapsed to a plain string when it is a single string. -/
def h1Title (decoded : List SNode) : TitleV :=
  match decoded with
  | [.str s] => .s s
  | ns => .ns ns

/-- The loop of `decodeArticle` over `root.children`: a `yaml` child
(re)sets the front matter — and the title when the front matter has a
`title` key; a level-1 heading is taken as the title only while no
title has been seen (`title === undefined`), otherwise it is decoded
into the body content like any other child.  The final
`article({title, ...meta, content})` spread re-applies the front-matter
title over any derived title; because the loop already lets a
front-matter title overwrite the title variable, the loop result equals
the spread result. -/
def decodeArticleLoop (js : JsLibs) :
    List MdNode → Option TitleV → List SNode → MdArticle
  | [], title, content => { title := title, content := content }
  | .yaml fm :: rest, title, content =>
    let title' := match fm.title with
      | some t => some (TitleV.s t)
      | none => title
    decodeArticleLoop js rest title' content
  | .heading 1 cs :: rest, none, content =>
    decodeArticleLoop js rest (some (h1Title (mdDecodeNodes js cs))) content
  | child :: rest, title, content =>
    decodeArticleLoop js rest title (content ++ [mdDecodeNode js child])

/-- `decodeArticle`, starting from an undefined title and empty body. -/
def decodeArticleChildren (js : JsLibs) (children : List MdNode) : MdArticle :=
  decodeArticleLoop js children none []

/-- `JSON5.stringify(value).slice(1, -1)`: drop the enclosing
brackets/braces. -/
def sliceInner (s : String) : String :=
  (s.drop 1).dropRight 1

/-- `stringifyMeta`: serialize a metadata dictionary as
`key=value`-style pairs separated by spaces, quoting values containing
whitespace. -/
def stringifyMeta (meta : List (String × String)) : String :=
  String.intercalate " " (meta.map (fun kv =>
    let k := kv.1
    let v := kv.2
    if v ≠ "" then
      if v.data.any jsWsChar then k ++ "=" ++ "\"" ++ v ++ "\"" else k ++ "=" ++ v
    else k))

mutual

/-- `encodeNode` for the Markdown codec: dispatch from a Stencila node
to an MDAST node.  Only `encodeParagraph` can produce `undefined`
(dropped paragraph); the source drops such nodes with a `filter` pass
inside `encodeMarkdown`, which the list encoder below fuses into a
`filterMap`. -/
def mdEncodeNode (js : JsLibs) : SNode → Option MdNode
  | .str s => some (.text (collapseNl s))
  | .nullV => some (.ext { name := "null" })
  | .bool b => some (.ext { name := if b then "true" else "false" })
  | .num q => some (.ext { name := "number", argument := some (js.numToString q) })
  | .arr xs =>
    some (.ext { name := "array",
                 argument := some (sliceInner (js.json5Stringify (.arr xs))) })
  | .obj o =>
    some (.ext { name := "object",
                 argument := some (sliceInner (js.json5Stringify (.obj o))) })
  | .cite target _ => some (.text ("@" ++ target))
  | .para content => mdEncodeParagraph js content
  | .heading d cs => some (.heading d (mdEncodeNodes js cs))
  | .thematicBreak => some .thematicBreak
  | .codeBlock text lang meta =>
    some (.code ⟨(text.data.reverse.dropWhile jsWsChar).reverse⟩ lang
      (some (match meta with | some m => stringifyMeta m | none => "")) none)

/-- `encodeParagraph`: `undefined` (skip the node) when the paragraph
has no content or a single all-whitespace text run; otherwise an MDAST
`paragraph`. -/
def mdEncodeParagraph (js : JsLibs) (content : List SNode) : Option MdNode :=
  match content with
  | [] => none
  | [.str s] =>
    if (jsTrim s).length = 0 then none
    else some (.paragraph (mdEncodeNodes js [.str s]))
  | cs => some (.paragraph (mdEncodeNodes js cs))

/-- Encode a list of children; `undefined` results are dropped (the
`filter` pass of `encodeMarkdown`). -/
def mdEncodeNodes (js : JsLibs) : List SNode → List MdNode
  | [] => []
  | n :: ns =>
    match mdEncodeNode js n with
    | some m => m :: mdEncodeNodes js ns
    | none => mdEncodeNodes js ns

end

/-- The serialized text of one generic-extension node, as built by
`stringifyExtensions`: `!name[content](argument){properties}` for an
inline extension, the fenced `name: argument\n:::\ncontent\n:::`
form for a block extension.  Falsy (absent or empty) parts are
skipped. -/
def extensionText (e : MdExtension) : String :=
  let props := String.intercalate " "
    ((e.properties.getD []).map (fun kv => kv.1 ++ "=" ++ "\"" ++ kv.2 ++ "\""))
  if e.block then
    e.name ++ ":"
      ++ (if optTruthy e.argument then " " ++ e.argument.getD "" else "")
      ++ "\n:::\n" ++ e.content.getD "" ++ "\n:::"
      ++ (if e.properties.isSome then "\x7b" ++ props ++ "\x7d" else "")
  else
    "!" ++ e.name
      ++ (if optTruthy e.content then "[" ++ e.content.getD "" ++ "]" else "")
      ++ (if optTruthy e.argument then "(" ++ e.argument.getD "" ++ ")" else "")
      ++ (if e.properties.isSome then "\x7b" ++ props ++ "\x7d" else "")

mutual

/-- `stringifyExtensions`: a post-processing map over the encoded MDAST
tree replacing every extension node by a raw `html` node holding its
serialized text (the external stringifier emits `html` values verbatim,
unescaped). -/
def stringifyExtensions : MdNode → MdNode
  | .ext e => .html (extensionText e)
  | .heading d cs => .heading d (stringifyExtensionsList cs)
  | .paragraph cs => .paragraph (stringifyExtensionsList cs)
  | n => n

/-- `stringifyExtensions` over a list of children. -/
def stringifyExtensionsList : List MdNode → List MdNode
  | [] => []
  | n :: ns => stringifyExtensions n :: stringifyExtensionsList ns

end

/-! ## CodeChunk block extensions (`chunk:`)

`decodeCodeChunk` re-parses the extension's text content through the
external Markdown parser into an article whose `content` is a node
list, and `encodeCodeChunk` serializes a node list back to text through
the external stringifier.  The functions below capture the node-level
logic of those two functions — everything between the text boundary and
the `CodeChunk` — applied to that decoded node list. -/

/-- A Stencila `CodeChunk` restricted to the fields the Markdown codec
reads and writes. -/
structure SCodeChunk where
  text : String
  programmingLanguage : Option String := none
  meta : Option (List (String × String)) := none
  outputs : Option (List SNode) := none

/-- Split the nodes following the code block at every `ThematicBreak`
(the loop of `decodeCodeChunk`, which starts a new output group on each
break and pushes the final group after the loop).  Empty groups are
kept, exactly as in the source. -/
def splitTB : List SNode → List (List SNode)
  | [] => [[]]
  | .thematicBreak :: rest => [] :: splitTB rest
  | n :: rest =>
    match splitTB rest with
    | g :: gs => (n :: g) :: gs
    | [] => [[n]]

/-- `pushOutputs`: a singleton group becomes that node — unwrapped to
its sole inline value when it is a `Paragraph` holding exactly one
child; any other group (including the empty group) is pushed as an
array. -/
def outputOf : List SNode → SNode
  | [.para [x]] => x
  | [n] => n
  | g => .arr g

/-- The node-level part of `decodeCodeChunk`: the first node must be a
`CodeBlock` (otherwise the source warns and returns an empty chunk —
the missing-content branch of the extension wrapper behaves the same
way); any following nodes are split on `ThematicBreak`s into the
`outputs`. -/
def decodeCodeChunkFromNodes : List SNode → SCodeChunk
  | .codeBlock t l m :: rest =>
    let outputs := if rest.isEmpty then [] else (splitTB rest).map outputOf
    { text := t, programmingLanguage := l, meta := m,
      outputs := if outputs.length > 0 then some outputs else none }
  | _ => { text := "" }

/-- One output as pushed by `encodeCodeChunk`: an array output whose
elements are all block content is spread into the node list; any other
output is pushed as a single node. -/
def spreadOutput : SNode → List SNode
  | .arr g => if g.all SNode.isBlockContent then g else [.arr g]
  | o => [o]

/-- Outputs after the first, each preceded by a `ThematicBreak`. -/
def encodeOutputsGo : List SNode → List SNode
  | [] => []
  | o :: rest => SNode.thematicBreak :: (spreadOutput o ++ encodeOutputsGo rest)

/-- All outputs: the first without a preceding break, each later output
preceded by a `ThematicBreak` (`if (index !== 0) nodes.push(...)`). -/
def encodeOutputs : List SNode → List SNode
  | [] => []
  | o :: rest => spreadOutput o ++ encodeOutputsGo rest

/-- The node-level part of `encodeCodeChunk`: a `CodeBlock` holding the
chunk's source (with the language defaulting to `'text'`), followed by
the outputs separated by `ThematicBreak`s. -/
def encodeCodeChunkNodes (ch : SCodeChunk) : List SNode :=
  .codeBlock ch.text (some (ch.programmingLanguage.getD "text")) ch.meta
    :: (match ch.outputs with
        | none => []
        | some os => encodeOutputs os)

/-! ## The JATS codec: deferred citation population

XML elements are modelled by `Xml`.  The source's `encodeCite` creates
an *empty* `<xref rid=... ref-type="bibr">` element, records it in the
mutable `EncodeState.citations` map, and `populateBibrContent` later
mutates it in place once `EncodeState.references` has citation text for
its `rid` — which `encodeReference` records (at most once per id, and
only for a reference with a non-empty `authors` list).  Since every
such element is created empty by `encodeCite`, is filled at most once,
and `references[rid]`, once written, never changes, the final content
of every pending element is `references[rid]` of the *final* state when
that is defined and empty otherwise.  The model therefore represents
each pending element as a `citeSlot` and applies a final
`resolveCitations` substitution with the final references map — the
same net transformation as the in-place mutation. -/

inductive Xml where
  | el (name : String) (attrs : List (String × String)) (children : List Xml)
  | txt (s : String)
  | citeSlot (rid : String)

/-- A Stencila `Person`, restricted to the fields `encodeName` and
`encodeCitationText` read.  (`honorificPfx` models `honorificPrefix`.) -/
structure JPerson where
  familyNames : Option (List String) := none
  givenNames : Option (List String) := none
  honorificPfx : Option String := none
  honorificSuffix : Option String := none
  name : Option String := none

/-- An entry of a `CreativeWork.authors` list: a `Person` or an
`Organization`. -/
inductive JAuthor where
  | person (p : JPerson)
  | org (name : String)

/-- A `CreativeWork` reference, restricted to the fields that
`encodeReference` / `encodeCitationText` read.  The publication-venue
fields (`isPartOf` page/volume/issue numbers) only add further
sub-elements to the encoded `<element-citation>` and are outside the
modelled sub-language. -/
structure JWork where
  id : Option String := none
  title : Option String := none
  authors : Option (List JAuthor) := none
  datePublished : Option String := none

/-- An item of `Article.references`: a plain string or a work. -/
inductive RefItem where
  | strRef (s : String)
  | work (w : JWork)

/-- An `Article` restricted to the fields `encodeArticle` reads in the
modelled sub-language: a string title, body content, and references.
`authors` and `description` default to absent. -/
structure JArticle where
  title : String := ""
  content : List SNode := []
  references : Option (List RefItem) := none

/-- `rid` derivation in `encodeCite`: a leading `#` is stripped from
the cite's target. -/
def stripHash (t : String) : String :=
  if "#".data.isPrefixOf t.data then t.drop 1 else t

/-- `Array.prototype.join(' ')`. -/
def joinSp (l : List String) : String :=
  String.intercalate " " l

/-- `encodeCitationText`: the family names of the first author
(followed by `'and '` + the second author's family names for exactly
two people, or `' et al.'` for more), then `, year` when a publication
date is present (the date string split at `-`). -/
def encodeCitationText (w : JWork) : String :=
  let authorsPart :=
    match w.authors with
    | some l =>
      if l.length ≠ 0 then
        match l.filterMap (fun a => match a with | .person p => some p | _ => none) with
        | [] => ""
        | firstPerson :: restPeople =>
          match firstPerson.familyNames with
          | some fns =>
            joinSp fns ++
              (if restPeople.length = 1 then
                 match restPeople with
                 | secondPerson :: _ =>
                   match secondPerson.familyNames with
                   | some g => "and " ++ joinSp g
                   | none => ""
                 | [] => ""
               else if restPeople.length > 1 then " et al."
               else "")
          | none => ""
      else ""
    | none => ""
  authorsPart ++
    (match w.datePublished with
     | some d => ", " ++ (⟨d.data.takeWhile (fun c => c ≠ '-')⟩ : String)
     | none => "")

/-- `encodeName`: a `<name>` element with surname / given-names /
prefix / suffix children when the person has family or given names
(JavaScript: any array, even empty, is truthy), else a
`<string-name>`. -/
def encodeName (p : JPerson) : Xml :=
  if p.familyNames.isSome ∨ p.givenNames.isSome then
    Xml.el "name" []
      ((match p.familyNames with
        | some f => [Xml.el "surname" [] [Xml.txt (joinSp f)]]
        | none => []) ++
       (match p.givenNames with
        | some g => [Xml.el "given-names" [] [Xml.txt (joinSp g)]]
        | none => []) ++
       (if optTruthy p.honorificPfx then
          [Xml.el "prefix" [] [Xml.txt (p.honorificPfx.getD "")]]
        else []) ++
       (if optTruthy p.honorificSuffix then
          [Xml.el "suffix" [] [Xml.txt (p.honorificSuffix.getD "")]]
        else []))
  else Xml.el "string-name" [] [Xml.txt (p.name.getD "")]

/-- Lookup in the modelled `EncodeState.references` map (an association
list keyed by reference id). -/
def lookupRef (st : List (String × String)) (rid : String) : Option String :=
  (st.find? (fun kv => kv.1 = rid)).map (fun kv => kv.2)

/-- `encodeReference`: encode one `Article.references` item as a
`<ref>` element, threading the `EncodeState.references` map: a work
with a non-empty `authors` list and a truthy id not yet in the map
records its generated citation text (the source then immediately calls
`populateBibrContent`, whose net effect the final `resolveCitations`
pass reproduces).  A plain-string reference encodes as an empty
`<ref>`. -/
def encodeReference : RefItem → List (String × String) → Xml × List (String × String)
  | .strRef _, st => (Xml.el "ref" [] [], st)
  | .work w, st =>
    let subT :=
      if optTruthy w.title then [Xml.el "article-title" [] [Xml.txt (w.title.getD "")]]
      else []
    let hasAuthors := match w.authors with | some (_ :: _) => true | _ => false
    let subA :=
      if hasAuthors then
        [Xml.el "person-group" [("person-group-type", "author")]
          ((w.authors.getD []).filterMap
            (fun a => match a with | .person p => some (encodeName p) | _ => none))]
      else []
    let st' :=
      if hasAuthors then
        match w.id with
        | some rid =>
          if rid ≠ "" ∧ lookupRef st rid = none then st ++ [(rid, encodeCitationText w)]
          else st
        | none => st
      else st
    let subY :=
      match w.datePublished with
      | some d =>
        if d ≠ "" then [Xml.el "year" [("iso-8601-date", d)] [Xml.txt d]] else []
      | none => []
    let cit := Xml.el "element-citation" [] (subT ++ subA ++ subY)
    (Xml.el "ref" (match w.id with | some i => [("id", i)] | none => []) [cit], st')

/-- Fold `encodeReference` over the reference list
(`references.map(ref => encodeReference(ref, state))`). -/
def encodeReferencesFold : List RefItem → List (String × String) → List Xml × List (String × String)
  | [], st => ([], st)
  | r :: rest, st =>
    let (x, st') := encodeReference r st
    let (xs, st'') := encodeReferencesFold rest st'
    (x :: xs, st'')

/-- `encodeReferences`: a single `<ref-list>` element when the article
has references, otherwise nothing. -/
def encodeReferences (refs : Option (List RefItem)) (st : List (String × String)) :
    List Xml × List (String × String) :=
  match refs with
  | none => ([], st)
  | some rs =>
    let (xs, st') := encodeReferencesFold rs st
    ([Xml.el "ref-list" [] (Xml.el "title" [] [Xml.txt "References"] :: xs)], st')

mutual

/-- `encodeNode` for the JATS codec, over the modelled sub-language:
paragraphs become `<p>`, headings become section `<title>`s, strings
become text, and a `Cite` becomes a pending citation element
(`encodeCite`) — its content is not re-encoded, only its target id.
Unhandled node types warn and encode to nothing. -/
def jatsEncodeNode : SNode → List Xml
  | .str s => [Xml.txt s]
  | .para cs => [Xml.el "p" [] (jatsEncodeNodes cs)]
  | .heading _ cs => [Xml.el "title" [] (jatsEncodeNodes cs)]
  | .cite target _ => [Xml.citeSlot (stripHash target)]
  | _ => []

/-- `encodeNodes` over a node list. -/
def jatsEncodeNodes : List SNode → List Xml
  | [] => []
  | n :: ns => jatsEncodeNode n ++ jatsEncodeNodes ns

end

/-- Append elements to the current (= last) section, as the source's
`section.elements.push(...el)` does. -/
def updateLast (secs : List (List Xml)) (els : List Xml) : List (List Xml) :=
  match secs with
  | [] => []
  | [last] => [last ++ els]
  | s :: rest => s :: updateLast rest els

/-- The loop of `encodeBody`: a `Heading` starts a new `<sec>`; if no
section exists yet one is created; the encoded elements are appended to
the current section. -/
def encodeBodyLoop : List SNode → List (List Xml) → List (List Xml)
  | [], secs => secs
  | n :: ns, secs =>
    let secs1 := if n.nodeType = "Heading" then secs ++ [[]] else secs
    let els := jatsEncodeNode n
    let secs2 := if secs1.isEmpty then [[]] else secs1
    encodeBodyLoop ns (updateLast secs2 els)

/-- `encodeBody`: the body content grouped into `<sec>` elements. -/
def encodeBody (nodes : List SNode) : Xml :=
  Xml.el "body" [] ((encodeBodyLoop nodes []).map (fun s => Xml.el "sec" [] s))

/-- `encodeTitle` for a plain-string title. -/
def encodeTitleX (t : String) : Xml :=
  Xml.el "title-group" [] [Xml.el "article-title" [] [Xml.txt t]]

mutual

/-- The final substitution reproducing `populateBibrContent`'s net
effect: each pending citation element becomes the
`<xref rid=... ref-type="bibr">` element that `encodeCite` created,
filled with text when the final references map has citation text for
its id and left empty otherwise. -/
def resolveCitations (refs : String → Option String) : Xml → Xml
  | .citeSlot rid =>
    Xml.el "xref" [("rid", rid), ("ref-type", "bibr")]
      (match refs rid with
       | some t => [Xml.txt t]
       | none => [])
  | .el name attrs children => .el name attrs (resolveCitationsList refs children)
  | .txt s => .txt s

/-- `resolveCitations` over children. -/
def resolveCitationsList (refs : String → Option String) : List Xml → List Xml
  | [] => []
  | x :: xs => resolveCitations refs x :: resolveCitationsList refs xs

end

/-- `encodeArticle` over the modelled sub-language: front matter
(title group, empty contributor group), body, then back matter with
the encoded references — the body is encoded *before* the references,
so every citation element is created before any citation text is known;
the final `resolveCitations` pass reproduces the deferred in-place
population. -/
def encodeArticleXml (a : JArticle) : Xml :=
  let front := Xml.el "front" []
    [Xml.el "article-meta" [] [encodeTitleX a.title, Xml.el "contrib-group" [] []]]
  let body := encodeBody a.content
  let (backChildren, st) := encodeReferences a.references []
  let back := Xml.el "back" [] backChildren
  let doc := Xml.el "article"
    [("xmlns:xlink", "http://www.w3.org/1999/xlink"),
     ("article-type", "research-article")]
    [front, body, back]
  resolveCitations (lookupRef st) doc

mutual

/-- Collect every `<xref>` element with the given `rid` attribute value
from an XML tree. -/
def collectBibrXrefs (rid : String) : Xml → List Xml
  | .el name attrs children =>
    (if name = "xref" ∧ attrs.contains ("rid", rid)
     then [Xml.el name attrs children] else [])
      ++ collectBibrXrefsList rid children
  | _ => []

/-- `collectBibrXrefs` over children. -/
def collectBibrXrefsList (rid : String) : List Xml → List Xml
  | [] => []
  | x :: xs => collectBibrXrefs rid x ++ collectBibrXrefsList rid xs

end

mutual

/-- Whether a node of the modelled sub-language contains a `Cite` whose
(`#`-stripped) target is `rid` at a position where `encodeNode` would
encode it (the content of a `Cite` is not itself encoded). -/
def containsCite (rid : String) : SNode → Bool
  | .cite target _ => stripHash target = rid
  | .para cs => containsCiteList rid cs
  | .heading _ cs => containsCiteList rid cs
  | _ => false

/-- `containsCite` over a node list. -/
def containsCiteList (rid : String) : List SNode → Bool
  | [] => false
  | n :: ns => containsCite rid n || containsCiteList rid ns

end

/-- Whether a reference item is a work that would record citation text
for `rid`: a `CreativeWork` with that (truthy) id and a non-empty
authors list. -/
def refQualifies (rid : String) : RefItem → Option JWork
  | .work w =>
    if (match w.authors with | some (_ :: _) => true | _ => false)
        && (w.id == some rid) && (rid != "") then some w
    else none
  | .strRef _ => none

/-- The first reference item that records citation text for `rid`
(later qualifying items are ignored by the
`state.references[rid] === undefined` guard). -/
def firstQualifiedRef (refs : List RefItem) (rid : String) : Option JWork :=
  refs.findSome? (refQualifies rid)

mutual

/-- Number of pending citation elements for `rid` in a pre-resolution
XML tree. -/
def slotCount (rid : String) : Xml → Nat
  | .citeSlot r => if r = rid then 1 else 0
  | .el _ _ children => slotCountList rid children
  | .txt _ => 0

/-- `slotCount` over children. -/
def slotCountList (rid : String) : List Xml → Nat
  | [] => 0
  | x :: xs => slotCount rid x + slotCountList rid xs

end

mutual

/-- Whether a pre-resolution XML tree contains no element already named
`xref` (the JATS encoder only produces `<xref>` via pending citation
elements, never directly). -/
def xrefFree : Xml → Bool
  | .el name _ children => name ≠ "xref" && xrefFreeList children
  | _ => true

/-- `xrefFree` over children. -/
def xrefFreeList : List Xml → Bool
  | [] => true
  | x :: xs => xrefFree x && xrefFreeList xs

end

/-- The `<xref>` element a pending citation for `rid` resolves to. -/
def filledXref (refs : String → Option String) (rid : String) : Xml :=
  Xml.el "xref" [("rid", rid), ("ref-type", "bibr")]
    (match refs rid with
     | some t => [Xml.txt t]
     | none => [])

/-- Join output groups with a `ThematicBreak` between consecutive
groups (the inverse reading of `splitTB`). -/
def joinTB : List (List SNode) → List SNode
  | [] => []
  | [g] => g
  | g :: gs => g ++ SNode.thematicBreak :: joinTB gs

/-- An output that survives the node-level encode/decode round trip
unchanged: not a `ThematicBreak` (which would be read as a separator),
not an array (which may be spread), and not a single-child `Paragraph`
(which decode unwraps). -/
def goodOut : SNode → Bool
  | .thematicBreak => false
  | .arr _ => false
  | .para [_] => false
  | _ => true

/-! ## Concrete fixtures used by witnesses and counterexamples -/

/-- A trivial instantiation of the external JavaScript libraries,
agreeing with their documented behaviour on the inputs the witnesses
use (`parseFloat('0') = 0`, `JSON5.parse('[]') = []`). -/
def jsLibs0 : JsLibs where
  parseFloat := fun _ => 0
  numToString := fun _ => "0"
  json5ParseArr := fun _ => []
  json5ParseObj := fun _ => []
  json5Stringify := fun _ => ""
  htmlDecode := fun _ => none

/-- The matcher metadata of the Markdown codec, as declared by
`MdCodec` (`mediaTypes` only). -/
def mdCodecInfo : CodecInfo where
  mediaTypes := some ["text/markdown", "text/x-markdown"]

/-- A codec that declares no matching criteria at all: it can never
satisfy the scan. -/
def dummyCodec : CodecInfo where

/-- Environment for the matcher counterexample of hint precedence: the
`md` codec module loads, everything else fails to load, `a.md` is a
path with media type `text/markdown`. -/
def envHint : MatchEnv where
  load := fun n => if n = "md" then .ok mdCodecInfo else .throws
  isPath := fun s => s = "a.md"
  mimeType := fun s => if s = "a.md" then some "text/markdown" else none

/-- Environment for the load-failure counterexample: only the `md`
codec module loads; in particular the first scanned module (`http`)
fails to load. -/
def envBreak : MatchEnv where
  load := fun n => if n = "md" then .ok mdCodecInfo else .throws
  isPath := fun _ => false
  mimeType := fun _ => none

/-- Environment for the load-failure tolerance witness: `dir` (and the
fast-path module) fail to load, `md` loads and matches, every other
module loads a codec with no matching criteria. -/
def envTolerant : MatchEnv where
  load := fun n =>
    if n = "dir" then .throws
    else if n = "md" then .ok mdCodecInfo
    else if n = "undefined" then .throws
    else .ok dummyCodec
  isPath := fun _ => false
  mimeType := fun _ => none

/-- Environment in which no codec module ever loads. -/
def envEmpty : MatchEnv where
  load := fun _ => .throws
  isPath := fun _ => false
  mimeType := fun _ => none

/-- Witness article for citation deferral: the body cites `bib1`
before the reference list defines it; the reference has three authors
and a 1990 publication date, so its citation text is
`"Smith et al., 1990"`. -/
def citedArticle : JArticle where
  title := "T"
  content := [.para [.str "See ", .cite "bib1" []]]
  references := some
    [.work { id := some "bib1",
             title := some "A title",
             authors := some
               [.person { familyNames := some ["Smith"] },
                .person { familyNames := some ["Jones"] },
                .person { familyNames := some ["Lee"] }],
             datePublished := some "1990-01-01" }]

/-- Counterexample article: the body cites `bib1` and the references
include an entry with id `bib1` — but that reference has no authors, so
`encodeReference` never records citation text for it. -/
def authorlessArticle : JArticle where
  title := "T"
  content := [.para [.cite "bib1" []]]
  references := some
    [.work { id := some "bib1",
             title := some "A title",
             datePublished := some "1990" }]

/-! ## Theorems -/

/-- A dropWhile that empties a list means every element satisfied the
predicate. -/
theorem jsTrimList_eq_nil_iff (l : List Char) :
    jsTrimList l = [] ↔ l.all jsWsChar = true := by
  unfold jsTrimList
  rw [List.reverse_eq_nil_iff, List.dropWhile_eq_nil_iff, List.all_eq_true]
  constructor
  · intro h x hx
    rcases List.mem_append.mp
        ((List.takeWhile_append_dropWhile (p := jsWsChar) (l := l)) ▸ hx) with h1 | h1
    · exact List.mem_takeWhile_imp h1
    · exact h x (List.mem_reverse.mpr h1)
  · intro h x hx
    exact h x (List.Sublist.mem (List.mem_reverse.mp hx) (List.dropWhile_sublist _))

/-- The trim of a string is empty iff all its characters are
whitespace. -/
theorem jsTrim_eq_empty_iff (s : String) :
    (jsTrim s).length = 0 ↔ s.data.all jsWsChar = true := by
  unfold jsTrim
  rw [← jsTrimList_eq_nil_iff]
  constructor
  · intro h
    have : (jsTrimList s.data).length = 0 := h
    exact List.length_eq_zero.mp this
  · intro h
    show (jsTrimList s.data).length = 0
    rw [h]
    rfl

/-- `encodeParagraph`, unfolded from the `encodeNode` dispatch. -/
theorem mdEncodeNode_para (js : JsLibs) (content : List SNode) :
    mdEncodeNode js (.para content) = mdEncodeParagraph js content := by
  simp [mdEncodeNode]

/-- C8.  Empty paragraph drop: encoding a `Paragraph` to Markdown
yields no node exactly when its content is empty or a single
all-whitespace text run; any other paragraph encodes to an MDAST
`paragraph` node. -/
theorem md_empty_paragraph_drop (js : JsLibs) (content : List SNode) :
    (mdEncodeNode js (.para content) = none
      ↔ content = [] ∨ ∃ s, content = [SNode.str s] ∧ s.data.all jsWsChar = true)
  ∧ (∀ m, mdEncodeNode js (.para content) = some m →
      ∃ cs, m = MdNode.paragraph cs) := by
  rw [mdEncodeNode_para]
  constructor
  · constructor
    · intro h
      rcases content with _ | ⟨c, rest⟩
      · exact Or.inl rfl
      rcases rest with _ | ⟨c2, rest⟩
      · cases c
        case str s =>
          simp only [mdEncodeParagraph] at h
          split at h
          · rename_i hw
            exact Or.inr ⟨s, rfl, (jsTrim_eq_empty_iff s).mp hw⟩
          · cases h
        all_goals simp [mdEncodeParagraph] at h
      · simp [mdEncodeParagraph] at h
    · rintro (rfl | ⟨s, rfl, hw⟩)
      · simp [mdEncodeParagraph]
      · simp only [mdEncodeParagraph]
        rw [if_pos ((jsTrim_eq_empty_iff s).mpr hw)]
  · intro m hm
    rcases content with _ | ⟨c, rest⟩
    · simp [mdEncodeParagraph] at hm
    rcases rest with _ | ⟨c2, rest⟩
    · cases c
      case str s =>
        simp only [mdEncodeParagraph] at hm
        split at hm
        · cases hm
        · exact ⟨_, (Option.some.injEq _ _).mp hm.symm⟩
      all_goals
        simp only [mdEncodeParagraph] at hm
        exact ⟨_, (Option.some.injEq _ _).mp hm.symm⟩
    · simp only [mdEncodeParagraph] at hm
      exact ⟨_, (Option.some.injEq _ _).mp hm.symm⟩

/-- Witness for C8: the paragraph with content `['   ']` is dropped,
and a paragraph with visible text is not. -/
theorem md_empty_paragraph_drop_witness :
    mdEncodeNode jsLibs0 (.para [SNode.str "   "]) = none :=
  (md_empty_paragraph_drop jsLibs0 [SNode.str "   "]).1.mpr
    (Or.inr ⟨"   ", rfl, by decide⟩)

/-- C6.  Markdown boolean extension round trip: encoding `true` nested
in a paragraph produces (after the `stringifyExtensions` pass, whose
`html` value the external stringifier emits verbatim) a paragraph whose
sole text is the literal `!true`; decoding the paragraph holding the
extension node that the parser produces for that text yields the
boolean `true` at the same position; symmetrically for `false`. -/
theorem md_boolean_extension_roundtrip (js : JsLibs) :
    ((mdEncodeNode js (.para [.bool true])).map stringifyExtensions
        = some (.paragraph [.html "!true"]))
  ∧ ((mdEncodeNode js (.para [.bool false])).map stringifyExtensions
        = some (.paragraph [.html "!false"]))
  ∧ mdDecodeNode js (.paragraph [.ext { name := "true" }]) = .para [.bool true]
  ∧ mdDecodeNode js (.paragraph [.ext { name := "false" }]) = .para [.bool false] := by
  refine ⟨?_, ?_, ?_, ?_⟩
  · simp [mdEncodeNode, mdEncodeParagraph, mdEncodeNodes, stringifyExtensions,
      stringifyExtensionsList, extensionText, optTruthy]
  · simp [mdEncodeNode, mdEncodeParagraph, mdEncodeNodes, stringifyExtensions,
      stringifyExtensionsList, extensionText, optTruthy]
  · simp [mdDecodeNode, mdDecodeNodes, decodeBoolean]
  · simp [mdDecodeNode, mdDecodeNodes, decodeBoolean]

/-- C10.  Defaults and argument precedence of the primitive Markdown
extensions: `!boolean` with neither argument nor content decodes to
`true`, `!number` to `0` (`parseFloat('0')`), `!array` to the empty
array (`JSON5.parse('[]')`); with both an argument and content present
the argument is used and the content ignored. -/
theorem md_primitive_extension_defaults (js : JsLibs)
    (hpf : js.parseFloat "0" = 0)
    (hj5 : js.json5ParseArr "[]" = []) :
    decodeBoolean { name := "boolean" } = true
  ∧ decodeNumber js { name := "number" } = 0
  ∧ decodeArray js { name := "array" } = []
  ∧ (∀ (a c : String) (p : Option (List (String × String))),
      decodeBoolean { name := "boolean", content := some c,
                      argument := some a, properties := p } = true
        ↔ (a = "true" ∨ a = "1"))
  ∧ (∀ (a c : String) (p : Option (List (String × String))),
      decodeNumber js { name := "number", content := some c,
                        argument := some a, properties := p }
        = js.parseFloat a)
  ∧ (∀ (a c : String) (p : Option (List (String × String))),
      decodeArray js { name := "array", content := some c,
                       argument := some a, properties := p }
        = js.json5ParseArr ("[" ++ a ++ "]")) := by
  refine ⟨by simp [decodeBoolean], ?_, ?_, ?_, ?_, ?_⟩
  · simpa [decodeNumber] using hpf
  · simpa [decodeArray] using hj5
  · intro a c p
    simp [decodeBoolean]
  · intro a c p
    simp [decodeNumber]
  · intro a c p
    simp [decodeArray]

/-- Witness for C10, at the trivial library instantiation. -/
theorem md_primitive_extension_defaults_witness :
    decodeBoolean { name := "boolean" } = true
  ∧ decodeNumber jsLibs0 { name := "number" } = 0
  ∧ decodeArray jsLibs0 { name := "array" } = [] :=
  ⟨(md_primitive_extension_defaults jsLibs0 rfl rfl).1,
   (md_primitive_extension_defaults jsLibs0 rfl rfl).2.1,
   (md_primitive_extension_defaults jsLibs0 rfl rfl).2.2.1⟩

/-- Any error thrown by `match` is the "no codec found" error with the
supplied content and format embedded. -/
theorem matchCodec_error_msg (env : MatchEnv) (content format : Option String)
    (isOutput : Bool) (m : String)
    (h : matchCodec env content format isOutput = .error m) :
    m = noCodecMessage content format := by
  unfold matchCodec at h
  rcases hk : resolveKeys env content format isOutput with ⟨fileName, extName, mediaType⟩
  rw [hk] at h
  simp only at h
  rcases hl : env.load (fastKey extName) with _ | _ | c <;> rw [hl] at h <;>
    simp only at h
  case ok => cases h
  all_goals
    rcases hs : scanCodecs env fileName extName mediaType content codecList none with
      _ | c2 <;> rw [hs] at h
  case' throws.some => cases h
  case' noCodec.some => cases h
  all_goals
    injection h with h
    exact h.symm

/-- The matcher's error is never the encode-precondition error. -/
theorem noCodecMessage_ne_precondition (content format : Option String) :
    noCodecMessage content format ≠ encodePreconditionMessage := by
  intro h
  have hp : "No codec could be found".data <+: encodePreconditionMessage.data := by
    rw [← h]
    unfold noCodecMessage
    rw [String.data_append]
    exact List.prefix_append _ _
  exact absurd hp (by decide)

/-- C9 (amended).  `encode` raises the "At least one of filePath or
format option must be provided" error exactly when neither a truthy
(non-empty) `filePath` nor a truthy `format` is given; when at least
one is truthy it proceeds to codec matching (`match(filePath, format,
true)`) without raising that error. -/
theorem encode_requires_filePath_or_format (env : MatchEnv)
    (filePath format : Option String) :
    (encodeSelect env filePath format = .error encodePreconditionMessage
      ↔ optTruthy filePath = false ∧ optTruthy format = false)
  ∧ ((optTruthy filePath = true ∨ optTruthy format = true) →
      encodeSelect env filePath format = matchCodec env filePath format true) := by
  constructor
  · constructor
    · intro h
      by_contra hc
      have htruthy : optTruthy filePath = true ∨ optTruthy format = true := by
        rcases Bool.eq_false_or_eq_true (optTruthy filePath) with h1 | h1
        · exact Or.inl h1
        · rcases Bool.eq_false_or_eq_true (optTruthy format) with h2 | h2
          · exact Or.inr h2
          · exact absurd ⟨h1, h2⟩ hc
      have hsel : encodeSelect env filePath format = matchCodec env filePath format true := by
        unfold encodeSelect
        rw [if_neg]
        simp only [not_not]
        rcases htruthy with h1 | h1
        · exact Or.inl (by simp [h1])
        · exact Or.inr (by simp [h1])
      rw [hsel] at h
      exact noCodecMessage_ne_precondition filePath format
        (matchCodec_error_msg env filePath format true _ h).symm
    · rintro ⟨h1, h2⟩
      unfold encodeSelect
      rw [if_pos]
      rintro (hc | hc)
      · rw [h1] at hc
        cases hc
      · rw [h2] at hc
        cases hc
  · intro htruthy
    unfold encodeSelect
    rw [if_neg]
    simp only [not_not]
    rcases htruthy with h1 | h1
    · exact Or.inl (by simp [h1])
    · exact Or.inr (by simp [h1])

/-- Witness for C9 (amended), at concrete inputs: with no options the
precondition error is raised; with a format given, `encode` proceeds to
matching. -/
theorem encode_requires_filePath_or_format_witness :
    encodeSelect envEmpty none none = .error encodePreconditionMessage
  ∧ encodeSelect envEmpty none (some "md") = matchCodec envEmpty none (some "md") true :=
  ⟨(encode_requires_filePath_or_format envEmpty none none).1.mpr ⟨rfl, rfl⟩,
   (encode_requires_filePath_or_format envEmpty none (some "md")).2 (Or.inr rfl)⟩

/-- Counterexample to C9 as stated: `options = { filePath: '' }`
*does* provide a `filePath`, yet `encode` still raises the
precondition error, because the check is JavaScript truthiness
(`!(filePath || format)`) and the empty string is falsy. -/
theorem encode_empty_string_filePath_cex :
    (some "" ≠ (none : Option String))
  ∧ encodeSelect envEmpty (some "") none = .error encodePreconditionMessage := by
  refine ⟨by simp, ?_⟩
  unfold encodeSelect
  rw [if_pos]
  rintro (hc | hc) <;> cases hc

section MatcherLemmas

variable (env : MatchEnv) (fn en mt ct : Option String)

/-- Scan step: a codec that loads but does not match is skipped, and
becomes the accumulator. -/
theorem scanCodecs_cons_ok (name : String) (rest : List String)
    (acc : Option CodecInfo) (c : CodecInfo)
    (hl : env.load name = .ok c)
    (hm : codecMatches c fn en mt ct = false) :
    scanCodecs env fn en mt ct (name :: rest) acc
      = scanCodecs env fn en mt ct rest (some c) := by
  simp [scanCodecs, hl, hm]

/-- Scan step: a codec that loads and matches is returned. -/
theorem scanCodecs_cons_ok_match (name : String) (rest : List String)
    (acc : Option CodecInfo) (c : CodecInfo)
    (hl : env.load name = .ok c)
    (hm : codecMatches c fn en mt ct = true) :
    scanCodecs env fn en mt ct (name :: rest) acc = some c := by
  simp [scanCodecs, hl, hm]

/-- Scan step: when a module fails to load *after* some codec has
already been loaded, the stale accumulator is retested (failing again,
its criteria being pure) and the scan continues. -/
theorem scanCodecs_cons_throws (name : String) (rest : List String)
    (c : CodecInfo)
    (hl : env.load name = .throws)
    (hm : codecMatches c fn en mt ct = false) :
    scanCodecs env fn en mt ct (name :: rest) (some c)
      = scanCodecs env fn en mt ct rest (some c) := by
  simp [scanCodecs, hl, hm]

/-- When no codec that loads matches (and the accumulator does not
match), the scan comes up empty. -/
theorem scanCodecs_none (names : List String) :
    ∀ (acc : Option CodecInfo),
    (∀ n ∈ names, ∀ cn, env.load n = .ok cn → codecMatches cn fn en mt ct = false) →
    (∀ c, acc = some c → codecMatches c fn en mt ct = false) →
    scanCodecs env fn en mt ct names acc = none := by
  induction names with
  | nil => intro acc _ _; rfl
  | cons name rest ih =>
    intro acc hnames hacc
    rcases hl : env.load name with _ | _ | c
    · rcases acc with _ | c
      · simp [scanCodecs, hl]
      · rw [scanCodecs_cons_throws env fn en mt ct name rest c hl (hacc c rfl)]
        exact ih (some c) (fun n hn => hnames n (List.mem_cons_of_mem _ hn)) hacc
    · simp [scanCodecs, hl]
    · have hm := hnames name (List.mem_cons_self _ _) c hl
      rw [scanCodecs_cons_ok env fn en mt ct name rest acc c hl hm]
      exact ih (some c) (fun n hn => hnames n (List.mem_cons_of_mem _ hn))
        (fun c' hc' => by cases hc'; exact hm)

/-- A prefix of codecs that all load but do not match is scanned past,
leaving a non-matching accumulator. -/
theorem scanCodecs_skip_prefix (pre : List String) :
    ∀ (rest : List String) (acc : Option CodecInfo),
    (∀ c, acc = some c → codecMatches c fn en mt ct = false) →
    (∀ n ∈ pre, ∃ cn, env.load n = .ok cn ∧ codecMatches cn fn en mt ct = false) →
    ∃ acc', scanCodecs env fn en mt ct (pre ++ rest) acc
        = scanCodecs env fn en mt ct rest acc'
      ∧ (∀ c, acc' = some c → codecMatches c fn en mt ct = false) := by
  induction pre with
  | nil => intro rest acc hacc _; exact ⟨acc, rfl, hacc⟩
  | cons name pre ih =>
    intro rest acc hacc hpre
    obtain ⟨cn, hl, hm⟩ := hpre name (List.mem_cons_self _ _)
    rw [List.cons_append,
      scanCodecs_cons_ok env fn en mt ct name (pre ++ rest) acc cn hl hm]
    exact ih rest (some cn) (fun c' hc' => by cases hc'; exact hm)
      (fun n hn => hpre n (List.mem_cons_of_mem _ hn))

end MatcherLemmas

/-- C5.  NoCodecMatch: when the fast path fails and no codec in the
scanned list matches, `match` fails with the "no codec found" error,
which embeds the supplied content and/or format. -/
theorem match_no_codec_found (env : MatchEnv)
    (content format : Option String) (isOutput : Bool)
    (fileName extName mediaType : Option String)
    (hk : resolveKeys env content format isOutput = (fileName, extName, mediaType))
    (hfast : ∀ c, env.load (fastKey extName) ≠ .ok c)
    (hscan : ∀ n ∈ codecList, ∀ cn, env.load n = .ok cn →
      codecMatches cn fileName extName mediaType content = false) :
    matchCodec env content format isOutput
      = .error ("No codec could be found"
          ++ (if optTruthy content then " for content \"" ++ content.getD "" ++ "\"" else "")
          ++ (if optTruthy format then " for format \"" ++ format.getD "" ++ "\"" else "")
          ++ ".") := by
  have hscanNone : scanCodecs env fileName extName mediaType content codecList none = none :=
    scanCodecs_none env fileName extName mediaType content codecList none hscan
      (fun c hc => by cases hc)
  unfold matchCodec
  rw [hk]
  rcases hl : env.load (fastKey extName) with _ | _ | c
  · simp only [hl, hscanNone]
    rfl
  · simp only [hl, hscanNone]
    rfl
  · exact absurd hl (hfast c)

/-- Witness for C5: with no path, no format hint and unsniffable
(absent) content, in an environment where no codec module loads,
`match` raises "No codec could be found.". -/
theorem match_no_codec_found_witness :
    matchCodec envEmpty none none false = .error "No codec could be found." := by
  have h := match_no_codec_found envEmpty none none false none none none rfl
    (fun c h => by cases h) (fun n _ cn hl => by cases hl)
  simpa using h

/-- Counterexample to C2 as stated: with content path `a.md` and
explicit format `application/jats+xml`, `match` returns the Markdown
codec — which does not declare that media type — because the fast path
imports the module named after the path's extension before the media
type is ever consulted. -/
theorem match_hint_precedence_cex :
    matchCodec envHint (some "a.md") (some "application/jats+xml") false
        = .ok mdCodecInfo
  ∧ mdCodecInfo.mediaTypes = some ["text/markdown", "text/x-markdown"]
  ∧ ¬ ("application/jats+xml" ∈ ["text/markdown", "text/x-markdown"]) :=
  ⟨rfl, rfl, by decide⟩

/-- C2 (amended).  Matcher hint precedence as implemented: an explicit
format hint containing `/` is treated as a media type, but when
`content` is a path whose extension names a loadable codec module, the
fast path returns that codec regardless of the media type; the media
type selects the codec through the scan only when no fast-path module
loads (e.g. when there is no path).  With no format hint and a path
`content`, the codec module named after the path's extension is
returned. -/
theorem match_format_hint_precedence (env : MatchEnv) :
    (∀ (c f : String) (info : CodecInfo),
        c ≠ "" → f ≠ "" → strContains f '/' = true → env.isPath c = true →
        env.load (strToLower ((jsExtname c).drop 1)) = .ok info →
        matchCodec env (some c) (some f) false = .ok info)
  ∧ (∀ (c : String) (info : CodecInfo),
        c ≠ "" → env.isPath c = true → hasUriScheme c = false →
        env.load (strToLower ((jsExtname c).drop 1)) = .ok info →
        matchCodec env (some c) none false = .ok info)
  ∧ (∀ (f : String) (info : CodecInfo) (pre post : List String) (name : String),
        f ≠ "" → strContains f '/' = true →
        (∀ cc, env.load "undefined" ≠ .ok cc) →
        codecList = pre ++ name :: post →
        (∀ n ∈ pre, ∃ cn, env.load n = .ok cn ∧
            codecMatches cn none none (some f) none = false) →
        env.load name = .ok info →
        codecMatches info none none (some f) none = true →
        matchCodec env none (some f) false = .ok info) := by
  refine ⟨?_, ?_, ?_⟩
  · intro c f info hc hf hslash hpath hload
    have hkeys : resolveKeys env (some c) (some f) false
        = (some (jsBasename c), some (strToLower ((jsExtname c).drop 1)), some f) := by
      unfold resolveKeys
      simp [hc, hpath, optTruthy, hf, hslash]
    unfold matchCodec
    rw [hkeys]
    simp only [fastKey, Option.getD_some, hload]
  · intro c info hc hpath huri hload
    have hkeys : resolveKeys env (some c) none false
        = (some (jsBasename c), some (strToLower ((jsExtname c).drop 1)),
           env.mimeType c) := by
      unfold resolveKeys
      simp [hc, hpath, optTruthy, huri]
    unfold matchCodec
    rw [hkeys]
    simp only [fastKey, Option.getD_some, hload]
  · intro f info pre post name hf hslash hfastfail hlist hpre hload hmatch
    have hkeys : resolveKeys env none (some f) false = (none, none, some f) := by
      unfold resolveKeys
      simp [optTruthy, hf, hslash]
    have hscan : scanCodecs env none none (some f) none codecList none = some info := by
      rw [hlist]
      obtain ⟨acc', hacc', hnm⟩ := scanCodecs_skip_prefix env none none (some f) none
        pre (name :: post) none (fun c hc => by cases hc) hpre
      rw [hacc',
        scanCodecs_cons_ok_match env none none (some f) none name post acc' info
          hload hmatch]
    unfold matchCodec
    rw [hkeys]
    rcases hl : env.load (fastKey none) with _ | _ | cc
    · simp only [hl, hscan]
    · simp only [hl, hscan]
    · exact absurd hl (hfastfail cc)

/-- Witness for C2 (amended): in the counterexample environment the
fast path returns the md codec for `a.md` both with and without an
explicit media-type hint, and with no path the JATS media type selects
the JATS codec through the scan. -/
theorem match_format_hint_precedence_witness :
    matchCodec envHint (some "a.md") (some "application/jats+xml") false
        = .ok mdCodecInfo
  ∧ matchCodec envHint (some "a.md") none false = .ok mdCodecInfo := by
  constructor
  · exact (match_format_hint_precedence envHint).1 "a.md" "application/jats+xml"
      mdCodecInfo (by decide) (by decide) (by decide) (by decide) rfl
  · exact (match_format_hint_precedence envHint).2.1 "a.md" mdCodecInfo
      (by decide) (by decide) (by decide) rfl

/-- Counterexample to C4 as stated: the first scanned codec module
(`http`) fails to load while the `md` module loads and matches the
`text/markdown` media type, yet `match` raises — the load failure
leaves the scan's codec variable `undefined`, `if (!codec) break`
aborts the scan, and the call falls through to the no-codec error. -/
theorem match_load_failure_cex :
    matchCodec envBreak none (some "text/markdown") false
        = .error "No codec could be found for format \"text/markdown\"."
  ∧ envBreak.load "http" = .throws
  ∧ envBreak.load "md" = .ok mdCodecInfo
  ∧ codecMatches mdCodecInfo none none (some "text/markdown") none = true
  ∧ "md" ∈ codecList :=
  ⟨rfl, rfl, rfl, rfl, by decide⟩

/-- C4 (amended).  Load-failure tolerance as implemented: a module
load failure occurring *after* some codec in the scan has already been
loaded leaves the previously loaded (non-matching) codec in place and
the scan continues, so a later codec can still be returned.  (When a
load failure occurs before any codec has loaded, the scan is aborted
and `match` raises — see the counterexample.) -/
theorem match_scan_load_failure_tolerance (env : MatchEnv)
    (content format : Option String) (isOutput : Bool)
    (fileName extName mediaType : Option String)
    (pre mid post : List String) (n1 n2 n3 : String)
    (info1 info3 : CodecInfo)
    (hk : resolveKeys env content format isOutput = (fileName, extName, mediaType))
    (hfast : ∀ c, env.load (fastKey extName) ≠ .ok c)
    (hlist : codecList = pre ++ n1 :: n2 :: (mid ++ n3 :: post))
    (hpre : ∀ n ∈ pre, ∃ cn, env.load n = .ok cn ∧
        codecMatches cn fileName extName mediaType content = false)
    (h1 : env.load n1 = .ok info1)
    (h1m : codecMatches info1 fileName extName mediaType content = false)
    (h2 : env.load n2 = .throws)
    (hmid : ∀ n ∈ mid, ∃ cn, env.load n = .ok cn ∧
        codecMatches cn fileName extName mediaType content = false)
    (h3 : env.load n3 = .ok info3)
    (h3m : codecMatches info3 fileName extName mediaType content = true) :
    matchCodec env content format isOutput = .ok info3 := by
  have hscan : scanCodecs env fileName extName mediaType content codecList none
      = some info3 := by
    rw [hlist]
    obtain ⟨acc', hacc', _⟩ := scanCodecs_skip_prefix env fileName extName mediaType
      content pre (n1 :: n2 :: (mid ++ n3 :: post)) none (fun c hc => by cases hc) hpre
    rw [hacc',
      scanCodecs_cons_ok env fileName extName mediaType content n1 _ acc' info1 h1 h1m,
      scanCodecs_cons_throws env fileName extName mediaType content n2 _ info1 h2 h1m]
    obtain ⟨acc2, hacc2, _⟩ := scanCodecs_skip_prefix env fileName extName mediaType
      content mid (n3 :: post) (some info1) (fun c hc => by cases hc; exact h1m) hmid
    rw [hacc2,
      scanCodecs_cons_ok_match env fileName extName mediaType content n3 post acc2
        info3 h3 h3m]
  unfold matchCodec
  rw [hk]
  rcases hl : env.load (fastKey extName) with _ | _ | cc
  · simp only [hl, hscan]
  · simp only [hl, hscan]
  · exact absurd hl (hfast cc)

/-- Witness for C4 (amended): `dir` fails to load after `http` has
loaded (a non-matching codec); the scan continues past ten more
loadable codecs and still returns the matching `md` codec. -/
theorem match_scan_load_failure_tolerance_witness :
    matchCodec envTolerant none (some "text/markdown") false = .ok mdCodecInfo := by
  refine match_scan_load_failure_tolerance envTolerant none (some "text/markdown")
    false none none (some "text/markdown")
    [] ["dar", "csv", "ods", "tdp", "xlsx", "docx", "gdoc", "html", "ipynb",
        "jats", "jats-pandoc", "latex"]
    ["odt", "pdf", "txt", "xmd", "dmagic", "rpng", "yaml", "pandoc", "json5",
     "jsonld", "json"]
    "http" "dir" "md" dummyCodec mdCodecInfo rfl
    (fun c h => by cases h) (by decide) (fun n hn => absurd hn (List.not_mem_nil n))
    rfl rfl rfl ?_ rfl rfl
  intro n hn
  refine ⟨dummyCodec, ?_, rfl⟩
  fin_cases hn <;> rfl

/-- Once a title has been seen, the `decodeArticle` loop (over
yaml-free children) only appends decoded nodes to the body. -/
theorem decodeArticleLoop_title_set (js : JsLibs) (rest : List MdNode) :
    ∀ (tv : TitleV) (content : List SNode),
    (∀ n ∈ rest, (match n with | MdNode.yaml _ => False | _ => True)) →
    decodeArticleLoop js rest (some tv) content
      = { title := some tv, content := content ++ rest.map (mdDecodeNode js) } := by
  induction rest with
  | nil => intro tv content _; simp [decodeArticleLoop]
  | cons child rest ih =>
    intro tv content hrest
    have hrest' : ∀ n ∈ rest, (match n with | MdNode.yaml _ => False | _ => True) :=
      fun n hn => hrest n (List.mem_cons_of_mem _ hn)
    have step : decodeArticleLoop js (child :: rest) (some tv) content
        = decodeArticleLoop js rest (some tv) (content ++ [mdDecodeNode js child]) := by
      cases child with
      | yaml fm => exact absurd (hrest _ (List.mem_cons_self _ _)) (by simp)
      | heading depth cs =>
        match depth with
        | 0 => rfl
        | 1 => rfl
        | (d + 2) => rfl
      | paragraph cs => rfl
      | text v => rfl
      | thematicBreak => rfl
      | code v l ms hp => rfl
      | html v => rfl
      | ext e => rfl
    rw [step, ih tv (content ++ [mdDecodeNode js child]) hrest']
    simp

/-- C3 (amended).  Markdown title rule as implemented: when the
document's front matter has no `title`, a leading H1 heading becomes
the article's title and is excluded from the body; but when the front
matter *does* have a `title`, that front-matter title wins and the
leading H1 remains in the body content as an ordinary heading.  With no
leading H1 the front-matter title is used. -/
theorem md_title_from_h1 (js : JsLibs) (fm : FrontMatter) (cs : List MdNode)
    (rest : List MdNode)
    (hrest : ∀ n ∈ rest, (match n with | MdNode.yaml _ => False | _ => True)) :
    (∀ t, fm.title = some t →
      decodeArticleChildren js (.yaml fm :: .heading 1 cs :: rest)
        = { title := some (.s t),
            content := SNode.heading 1 (mdDecodeNodes js cs)
              :: rest.map (mdDecodeNode js) })
  ∧ (fm.title = none →
      decodeArticleChildren js (.yaml fm :: .heading 1 cs :: rest)
        = { title := some (h1Title (mdDecodeNodes js cs)),
            content := rest.map (mdDecodeNode js) })
  ∧ (∀ t, fm.title = some t →
      decodeArticleChildren js (.yaml fm :: rest)
        = { title := some (.s t), content := rest.map (mdDecodeNode js) }) := by
  refine ⟨?_, ?_, ?_⟩
  · intro t ht
    show decodeArticleLoop js (.yaml fm :: .heading 1 cs :: rest) none [] = _
    rw [decodeArticleLoop, ht]
    have step : decodeArticleLoop js (MdNode.heading 1 cs :: rest) (some (TitleV.s t)) []
        = decodeArticleLoop js rest (some (TitleV.s t))
            ([] ++ [mdDecodeNode js (.heading 1 cs)]) := rfl
    rw [step, decodeArticleLoop_title_set js rest (TitleV.s t) _ hrest]
    simp [mdDecodeNode]
  · intro ht
    show decodeArticleLoop js (.yaml fm :: .heading 1 cs :: rest) none [] = _
    rw [decodeArticleLoop, ht]
    have step : decodeArticleLoop js (MdNode.heading 1 cs :: rest) none []
        = decodeArticleLoop js rest (some (h1Title (mdDecodeNodes js cs))) [] := rfl
    rw [step, decodeArticleLoop_title_set js rest _ _ hrest]
    simp
  · intro t ht
    show decodeArticleLoop js (.yaml fm :: rest) none [] = _
    rw [decodeArticleLoop, ht]
    rw [decodeArticleLoop_title_set js rest _ _ hrest]
    simp

/-- Witness for C3 (amended): with front-matter title `FM` the H1 is
kept in the body and `FM` wins; with no front-matter title the H1
becomes the title and is dropped from the body. -/
theorem md_title_from_h1_witness :
    decodeArticleChildren jsLibs0
        [.yaml { title := some "FM" }, .heading 1 [.text "H1"]]
      = { title := some (.s "FM"), content := [SNode.heading 1 [.str "H1"]] }
  ∧ decodeArticleChildren jsLibs0
        [.yaml { title := none }, .heading 1 [.text "H1"]]
      = { title := some (.s "H1"), content := [] } := by
  constructor
  · have h := (md_title_from_h1 jsLibs0 { title := some "FM" } [.text "H1"] []
      (fun n hn => absurd hn (List.not_mem_nil n))).1 "FM" rfl
    simpa [mdDecodeNodes, mdDecodeNode, collapseNl, collapseNlAux] using h
  · have h := (md_title_from_h1 jsLibs0 { title := none } [.text "H1"] []
      (fun n hn => absurd hn (List.not_mem_nil n))).2.1 rfl
    simpa [mdDecodeNodes, mdDecodeNode, h1Title, collapseNl, collapseNlAux] using h

/-- Counterexample to C3 as stated: front matter `title: FM` followed
by a leading H1 — the decoded article keeps the front-matter title
`FM`, not the H1 text, and the H1 heading stays in the body. -/
theorem md_title_from_h1_cex :
    decodeArticleChildren jsLibs0
        [.yaml { title := some "FM" }, .heading 1 [.text "H1"]]
      = { title := some (.s "FM"), content := [SNode.heading 1 [.str "H1"]] }
  ∧ some (TitleV.s "FM") ≠ some (TitleV.s "H1") := by
  constructor
  · rfl
  · intro h
    injection h with h
    injection h with h
    exact absurd h (by decide)

/-- A `ThematicBreak`-free node list forms a single output group. -/
theorem splitTB_tbFree (g : List SNode)
    (hg : ∀ n ∈ g, n ≠ SNode.thematicBreak) : splitTB g = [g] := by
  induction g with
  | nil => rfl
  | cons n rest ih =>
    have hrest : splitTB rest = [rest] :=
      ih (fun x hx => hg x (List.mem_cons_of_mem _ hx))
    cases n
    case thematicBreak => exact absurd rfl (hg _ (List.mem_cons_self _ _))
    all_goals simp [splitTB, hrest]

/-- Splitting after a group and an explicit `ThematicBreak` peels off
that group. -/
theorem splitTB_append_tb (g rest : List SNode)
    (hg : ∀ n ∈ g, n ≠ SNode.thematicBreak) :
    splitTB (g ++ SNode.thematicBreak :: rest) = g :: splitTB rest := by
  induction g with
  | nil => rfl
  | cons n g' ih =>
    have ih' := ih (fun x hx => hg x (List.mem_cons_of_mem _ hx))
    cases n
    case thematicBreak => exact absurd rfl (hg _ (List.mem_cons_self _ _))
    all_goals simp [splitTB, ih']

/-- `splitTB` inverts `joinTB` on non-empty lists of break-free
groups. -/
theorem splitTB_joinTB (groups : List (List SNode)) :
    groups ≠ [] →
    (∀ g ∈ groups, ∀ n ∈ g, n ≠ SNode.thematicBreak) →
    splitTB (joinTB groups) = groups := by
  induction groups with
  | nil => intro h _; exact absurd rfl h
  | cons g gs ih =>
    intro _ hfree
    rcases gs with _ | ⟨g2, gs'⟩
    · exact splitTB_tbFree g (hfree g (List.mem_cons_self _ _))
    · show splitTB (g ++ SNode.thematicBreak :: joinTB (g2 :: gs')) = _
      rw [splitTB_append_tb g _ (hfree g (List.mem_cons_self _ _)),
        ih (by simp) (fun g' hg' => hfree g' (List.mem_cons_of_mem _ hg'))]

/-- A good output is pushed unspread. -/
theorem spreadOutput_good (o : SNode) (h : goodOut o = true) :
    spreadOutput o = [o] := by
  cases o <;> simp [goodOut] at h ⊢ <;> rfl

/-- A good output forms a singleton group that decodes back to
itself. -/
theorem outputOf_good (o : SNode) (h : goodOut o = true) :
    outputOf [o] = o := by
  cases o
  case para content =>
    rcases content with _ | ⟨x, _ | ⟨y, rest⟩⟩
    · rfl
    · simp [goodOut] at h
    · rfl
  all_goals rfl

/-- The `ThematicBreak`-joined singleton groups of good outputs are
exactly what the encoder's output loop emits. -/
theorem joinTB_singles (rest : List SNode) :
    ∀ (o : SNode), (∀ x ∈ rest, goodOut x = true) →
    joinTB ((o :: rest).map (fun x => [x])) = o :: encodeOutputsGo rest := by
  induction rest with
  | nil => intro o _; rfl
  | cons o2 rest ih =>
    intro o hgood
    show joinTB ([o] :: (o2 :: rest).map (fun x => [x]))
        = o :: SNode.thematicBreak :: (spreadOutput o2 ++ encodeOutputsGo rest)
    rw [spreadOutput_good o2 (hgood o2 (List.mem_cons_self _ _))]
    have ih' := ih o2 (fun x hx => hgood x (List.mem_cons_of_mem _ hx))
    show [o] ++ SNode.thematicBreak :: joinTB ((o2 :: rest).map (fun x => [x]))
        = o :: SNode.thematicBreak :: ([o2] ++ encodeOutputsGo rest)
    rw [ih']
    rfl

/-- Encoding good outputs produces exactly the `ThematicBreak`-joined
singleton groups. -/
theorem encodeOutputs_joinTB (os : List SNode) (hos : os ≠ [])
    (hgood : ∀ o ∈ os, goodOut o = true) :
    encodeOutputs os = joinTB (os.map (fun o => [o])) := by
  rcases os with _ | ⟨o, rest⟩
  · exact absurd rfl hos
  show spreadOutput o ++ encodeOutputsGo rest = _
  rw [spreadOutput_good o (hgood o (List.mem_cons_self _ _)),
    joinTB_singles rest o (fun x hx => hgood x (List.mem_cons_of_mem _ hx))]
  rfl

/-- C7.  CodeChunk outputs via `ThematicBreak`: (1) decoding a code
block followed by `ThematicBreak`-joined groups recovers one output per
group; (2) an output group that is a single `Paragraph` holding exactly
one child is unwrapped to that bare value; (3) encode inserts a
`ThematicBreak` before each output after the first; (4) on outputs that
are neither breaks, arrays, nor single-child paragraphs, decode is a
left inverse of encode (the language defaulting to `'text'`). -/
theorem md_code_chunk_outputs :
    (∀ (t : String) (l : Option String) (m : Option (List (String × String)))
        (groups : List (List SNode)),
      groups ≠ [] → joinTB groups ≠ [] →
      (∀ g ∈ groups, ∀ n ∈ g, n ≠ SNode.thematicBreak) →
      decodeCodeChunkFromNodes (.codeBlock t l m :: joinTB groups)
        = { text := t, programmingLanguage := l, meta := m,
            outputs := some (groups.map outputOf) })
  ∧ (∀ (t : String) (l : Option String) (m : Option (List (String × String)))
        (x : SNode),
      decodeCodeChunkFromNodes [.codeBlock t l m, .para [x]]
        = { text := t, programmingLanguage := l, meta := m,
            outputs := some [x] })
  ∧ (∀ (ch : SCodeChunk) (o1 o2 : SNode) (rest : List SNode),
      ch.outputs = some (o1 :: o2 :: rest) →
      encodeCodeChunkNodes ch
        = .codeBlock ch.text (some (ch.programmingLanguage.getD "text")) ch.meta
            :: (spreadOutput o1
                ++ SNode.thematicBreak :: (spreadOutput o2 ++ encodeOutputsGo rest)))
  ∧ (∀ (ch : SCodeChunk) (os : List SNode),
      ch.outputs = some os → os ≠ [] →
      (∀ o ∈ os, goodOut o = true) →
      decodeCodeChunkFromNodes (encodeCodeChunkNodes ch)
        = { text := ch.text,
            programmingLanguage := some (ch.programmingLanguage.getD "text"),
            meta := ch.meta, outputs := some os }) := by
  refine ⟨?_, ?_, ?_, ?_⟩
  · intro t l m groups hne hjoin hfree
    have h1 : (joinTB groups).isEmpty = false := by
      cases hjj : joinTB groups
      · exact absurd hjj hjoin
      · rfl
    have hlen : 0 < (groups.map outputOf).length := by
      simpa using List.length_pos.mpr hne
    simp only [decodeCodeChunkFromNodes, h1, Bool.false_eq_true, if_false]
    rw [splitTB_joinTB groups hne hfree]
    simp only [hlen, if_pos]
  · intro t l m x
    rfl
  · intro ch o1 o2 rest h
    show SNode.codeBlock ch.text (some (ch.programmingLanguage.getD "text")) ch.meta
        :: (match ch.outputs with
            | none => []
            | some os => encodeOutputs os) = _
    rw [h]
    rfl
  · intro ch os h hne hgood
    show decodeCodeChunkFromNodes
        (SNode.codeBlock ch.text (some (ch.programmingLanguage.getD "text")) ch.meta
          :: (match ch.outputs with
              | none => []
              | some os => encodeOutputs os)) = _
    rw [h]
    dsimp only
    have henc := encodeOutputs_joinTB os hne hgood
    rw [henc]
    have hsingles : (os.map (fun o => [o])) ≠ [] := by
      simpa using hne
    have hjoin : joinTB (os.map (fun o => [o])) ≠ [] := by
      rcases os with _ | ⟨o, rest⟩
      · exact absurd rfl hne
      rw [← henc]
      show spreadOutput o ++ encodeOutputsGo rest ≠ []
      rw [spreadOutput_good o (hgood o (List.mem_cons_self _ _))]
      simp
    have hfree : ∀ g ∈ os.map (fun o => [o]), ∀ n ∈ g, n ≠ SNode.thematicBreak := by
      intro g hg n hn
      obtain ⟨o, ho, rfl⟩ := List.mem_map.mp hg
      rcases List.mem_singleton.mp hn with rfl
      intro hTB
      have := hgood n ho
      rw [hTB] at this
      simp [goodOut] at this
    have h1 : (joinTB (os.map (fun o => [o]))).isEmpty = false := by
      cases hjj : joinTB (os.map (fun o => [o]))
      · exact absurd hjj hjoin
      · rfl
    simp only [decodeCodeChunkFromNodes, h1, Bool.false_eq_true, if_false]
    rw [splitTB_joinTB _ hsingles hfree]
    have houts : (os.map (fun o => [o])).map outputOf = os := by
      rw [List.map_map]
      have : (outputOf ∘ fun o => [o]) = fun o => outputOf [o] := rfl
      rw [this]
      calc os.map (fun o => outputOf [o])
          = os.map id := List.map_congr_left (fun o ho => outputOf_good o (hgood o ho))
        _ = os := List.map_id os
    rw [houts]
    have hlen : 0 < os.length := List.length_pos.mpr hne
    simp only [hlen, if_pos]

/-- Witness for C7, at a concrete chunk with two good outputs. -/
theorem md_code_chunk_outputs_witness :
    decodeCodeChunkFromNodes
        (encodeCodeChunkNodes
          { text := "x = 1", programmingLanguage := some "python",
            outputs := some [SNode.heading 2 [.str "out"],
                             SNode.para [.str "a", .str "b"]] })
      = { text := "x = 1", programmingLanguage := some "python",
          outputs := some [SNode.heading 2 [.str "out"],
                           SNode.para [.str "a", .str "b"]] }
  ∧ decodeCodeChunkFromNodes
        [.codeBlock "x" (some "py") none, .para [.num 42]]
      = { text := "x", programmingLanguage := some "py",
          outputs := some [SNode.num 42] } := by
  constructor
  · exact md_code_chunk_outputs.2.2.2
      { text := "x = 1", programmingLanguage := some "python",
        outputs := some [SNode.heading 2 [.str "out"],
                         SNode.para [.str "a", .str "b"]] }
      [SNode.heading 2 [.str "out"], SNode.para [.str "a", .str "b"]]
      rfl (by simp)
      (by
        intro o ho
        rcases List.mem_cons.mp ho with rfl | ho'
        · rfl
        · rcases List.mem_singleton.mp ho' with rfl
          rfl)
  · exact md_code_chunk_outputs.2.1 "x" (some "py") none (SNode.num 42)

theorem collectBibrXrefsList_append (rid : String) (a b : List Xml) :
    collectBibrXrefsList rid (a ++ b)
      = collectBibrXrefsList rid a ++ collectBibrXrefsList rid b := by
  induction a with
  | nil => rfl
  | cons x xs ih => simp [collectBibrXrefsList, ih]

theorem slotCountList_append (rid : String) (a b : List Xml) :
    slotCountList rid (a ++ b) = slotCountList rid a + slotCountList rid b := by
  induction a with
  | nil => simp [slotCountList]
  | cons x xs ih => simp [slotCountList, ih, Nat.add_assoc]

theorem xrefFreeList_append (a b : List Xml) :
    xrefFreeList (a ++ b) = (xrefFreeList a && xrefFreeList b) := by
  induction a with
  | nil => simp [xrefFreeList]
  | cons x xs ih => simp [xrefFreeList, ih, Bool.and_assoc]

theorem resolveCitationsList_append (refs : String → Option String) (a b : List Xml) :
    resolveCitationsList refs (a ++ b)
      = resolveCitationsList refs a ++ resolveCitationsList refs b := by
  induction a with
  | nil => rfl
  | cons x xs ih => simp [resolveCitationsList, ih]

mutual

/-- In an `xref`-free tree, resolving the pending citations makes every
collected `<xref rid=rid>` element exactly the filled pending element,
one per pending slot. -/
theorem collect_resolve (refs : String → Option String) (rid : String) :
    ∀ (x : Xml), xrefFree x = true →
    collectBibrXrefs rid (resolveCitations refs x)
      = List.replicate (slotCount rid x) (filledXref refs rid)
  | .txt s, _ => rfl
  | .citeSlot r, _ => by
    show collectBibrXrefs rid (filledXref refs r)
        = List.replicate (slotCount rid (Xml.citeSlot r)) (filledXref refs rid)
    by_cases hr : r = rid
    · subst hr
      unfold filledXref collectBibrXrefs
      rw [if_pos ⟨rfl, by simp⟩]
      rcases refs r with _ | t
      · simp [collectBibrXrefsList, slotCount]
      · simp [collectBibrXrefsList, collectBibrXrefs, slotCount]
    · unfold filledXref collectBibrXrefs
      rw [if_neg]
      · rcases refs r with _ | t
        · simp [collectBibrXrefsList, slotCount, hr]
        · simp [collectBibrXrefsList, collectBibrXrefs, slotCount, hr]
      · rintro ⟨-, hcon⟩
        simp at hcon
        exact hr hcon.symm
  | .el name attrs children, hfree => by
    have h1 : ¬ name = "xref" ∧ xrefFreeList children = true := by
      have h := hfree
      unfold xrefFree at h
      simpa using h
    show collectBibrXrefs rid (Xml.el name attrs (resolveCitationsList refs children))
        = _
    unfold collectBibrXrefs
    rw [if_neg (fun hcon => h1.1 hcon.1)]
    simp only [List.nil_append]
    exact collect_resolve_list refs rid children h1.2

/-- `collect_resolve` over children. -/
theorem collect_resolve_list (refs : String → Option String) (rid : String) :
    ∀ (xs : List Xml), xrefFreeList xs = true →
    collectBibrXrefsList rid (resolveCitationsList refs xs)
      = List.replicate (slotCountList rid xs) (filledXref refs rid)
  | [], _ => rfl
  | x :: xs, hfree => by
    have h1 : xrefFree x = true ∧ xrefFreeList xs = true := by
      have h := hfree
      unfold xrefFreeList at h
      simpa using h
    show collectBibrXrefs rid (resolveCitations refs x)
        ++ collectBibrXrefsList rid (resolveCitationsList refs xs) = _
    rw [collect_resolve refs rid x h1.1, collect_resolve_list refs rid xs h1.2]
    show _ = List.replicate (slotCount rid x + slotCountList rid xs) _
    rw [List.replicate_add]

end

mutual

/-- The JATS encoder never produces an element already named `xref`:
pending citations are the only source of `<xref>` elements. -/
theorem xrefFree_jatsEncodeNode :
    ∀ (n : SNode), xrefFreeList (jatsEncodeNode n) = true
  | .str s => rfl
  | .nullV => rfl
  | .bool b => rfl
  | .num q => rfl
  | .arr xs => rfl
  | .obj o => rfl
  | .thematicBreak => rfl
  | .codeBlock t l m => rfl
  | .cite target c => rfl
  | .para cs => by
    show xrefFreeList [Xml.el "p" [] (jatsEncodeNodes cs)] = true
    have h := xrefFree_jatsEncodeNodes cs
    simp [xrefFreeList, xrefFree, h]
  | .heading d cs => by
    show xrefFreeList [Xml.el "title" [] (jatsEncodeNodes cs)] = true
    have h := xrefFree_jatsEncodeNodes cs
    simp [xrefFreeList, xrefFree, h]

/-- `xrefFree_jatsEncodeNode` over node lists. -/
theorem xrefFree_jatsEncodeNodes :
    ∀ (ns : List SNode), xrefFreeList (jatsEncodeNodes ns) = true
  | [] => rfl
  | n :: ns => by
    show xrefFreeList (jatsEncodeNode n ++ jatsEncodeNodes ns) = true
    rw [xrefFreeList_append, xrefFree_jatsEncodeNode n, xrefFree_jatsEncodeNodes ns]
    rfl

end

mutual

/-- A node containing a `Cite` with (stripped) target `rid` encodes to
elements containing at least one pending citation slot for `rid`. -/
theorem slotCount_jatsEncodeNode (rid : String) :
    ∀ (n : SNode), containsCite rid n = true →
    1 ≤ slotCountList rid (jatsEncodeNode n)
  | .str s, h => by simp [containsCite] at h
  | .nullV, h => by simp [containsCite] at h
  | .bool b, h => by simp [containsCite] at h
  | .num q, h => by simp [containsCite] at h
  | .arr xs, h => by simp [containsCite] at h
  | .obj o, h => by simp [containsCite] at h
  | .thematicBreak, h => by simp [containsCite] at h
  | .codeBlock t l m, h => by simp [containsCite] at h
  | .cite target c, h => by
    have htarget : stripHash target = rid := by
      have h' := h
      unfold containsCite at h'
      simpa using h'
    show 1 ≤ slotCountList rid [Xml.citeSlot (stripHash target)]
    simp [slotCountList, slotCount, htarget]
  | .para cs, h => by
    have h' : containsCiteList rid cs = true := by
      have := h
      unfold containsCite at this
      exact this
    show 1 ≤ slotCountList rid [Xml.el "p" [] (jatsEncodeNodes cs)]
    have := slotCount_jatsEncodeNodes rid cs h'
    simpa [slotCountList, slotCount] using this
  | .heading d cs, h => by
    have h' : containsCiteList rid cs = true := by
      have := h
      unfold containsCite at this
      exact this
    show 1 ≤ slotCountList rid [Xml.el "title" [] (jatsEncodeNodes cs)]
    have := slotCount_jatsEncodeNodes rid cs h'
    simpa [slotCountList, slotCount] using this

/-- `slotCount_jatsEncodeNode` over node lists. -/
theorem slotCount_jatsEncodeNodes (rid : String) :
    ∀ (ns : List SNode), containsCiteList rid ns = true →
    1 ≤ slotCountList rid (jatsEncodeNodes ns)
  | [], h => by simp [containsCiteList] at h
  | n :: ns, h => by
    have h' : containsCite rid n = true ∨ containsCiteList rid ns = true := by
      have := h
      unfold containsCiteList at this
      simpa using this
    show 1 ≤ slotCountList rid (jatsEncodeNode n ++ jatsEncodeNodes ns)
    rw [slotCountList_append]
    rcases h' with h' | h'
    · exact le_trans (slotCount_jatsEncodeNode rid n h') (Nat.le_add_right _ _)
    · exact le_trans (slotCount_jatsEncodeNodes rid ns h') (Nat.le_add_left _ _)

end

/-- Appending to the current section preserves the flattened element
sequence. -/
theorem updateLast_flatten (els : List Xml) :
    ∀ (secs : List (List Xml)), secs ≠ [] →
    (updateLast secs els).flatten = secs.flatten ++ els := by
  intro secs
  induction secs with
  | nil => intro h; exact absurd rfl h
  | cons s rest ih =>
    intro _
    rcases rest with _ | ⟨s2, rest2⟩
    · simp [updateLast]
    · show (s :: updateLast (s2 :: rest2) els).flatten = _
      rw [List.flatten_cons, ih (by simp)]
      simp [List.append_assoc]

/-- The section-creation step of the body loop never yields an empty
section list. -/
theorem ifSecs_ne (c : Prop) [Decidable c] (secs : List (List Xml)) :
    (if (if c then secs ++ [[]] else secs).isEmpty then [[]]
     else (if c then secs ++ [[]] else secs)) ≠ [] := by
  by_cases hc : c
  · simp only [if_pos hc]
    split
    · simp
    · simp
  · simp only [if_neg hc]
    split
    · simp
    · rename_i h
      intro hn
      rw [hn] at h
      simp at h

/-- The section-creation step of the body loop preserves the flattened
element sequence. -/
theorem ifSecs_flatten (c : Prop) [Decidable c] (secs : List (List Xml)) :
    (if (if c then secs ++ [[]] else secs).isEmpty then [[]]
     else (if c then secs ++ [[]] else secs)).flatten = secs.flatten := by
  by_cases hc : c
  · simp only [if_pos hc]
    split
    · rename_i h
      rw [List.isEmpty_iff] at h
      simp at h
    · simp
  · simp only [if_neg hc]
    split
    · rename_i h
      rw [List.isEmpty_iff] at h
      rw [h]
      rfl
    · rfl

/-- The flattened sections of `encodeBody`'s loop are exactly the
encoded nodes in order. -/
theorem encodeBodyLoop_flatten :
    ∀ (nodes : List SNode) (secs : List (List Xml)),
    (encodeBodyLoop nodes secs).flatten = secs.flatten ++ jatsEncodeNodes nodes := by
  intro nodes
  induction nodes with
  | nil => intro secs; simp [encodeBodyLoop, jatsEncodeNodes]
  | cons n ns ih =>
    intro secs
    simp only [encodeBodyLoop]
    rw [ih, updateLast_flatten _ _ (ifSecs_ne _ secs), ifSecs_flatten]
    simp only [jatsEncodeNodes]
    rw [List.append_assoc]

theorem slotCountList_map_sec (rid : String) (secs : List (List Xml)) :
    slotCountList rid (secs.map (fun s => Xml.el "sec" [] s))
      = slotCountList rid secs.flatten := by
  induction secs with
  | nil => rfl
  | cons s rest ih =>
    simp only [List.map_cons, List.flatten_cons, slotCountList_append, ← ih]
    show slotCount rid (Xml.el "sec" [] s) + _ = _
    rw [show slotCount rid (Xml.el "sec" [] s) = slotCountList rid s from rfl]

/-- An element with a name other than `xref` and `xref`-free children
is `xref`-free. -/
theorem xrefFree_el (name : String) (attrs : List (String × String))
    (children : List Xml) (hn : ¬ name = "xref")
    (hc : xrefFreeList children = true) :
    xrefFree (Xml.el name attrs children) = true := by
  unfold xrefFree
  simp [hn, hc]

theorem xrefFreeList_map_sec (secs : List (List Xml))
    (h : xrefFreeList secs.flatten = true) :
    xrefFreeList (secs.map (fun s => Xml.el "sec" [] s)) = true := by
  induction secs with
  | nil => rfl
  | cons s rest ih =>
    rw [List.flatten_cons, xrefFreeList_append, Bool.and_eq_true] at h
    simp only [List.map_cons]
    show (xrefFree (Xml.el "sec" [] s) && _) = true
    rw [xrefFree_el _ _ _ (by decide) h.1, ih h.2]
    rfl

theorem xrefFreeList_of_forall (xs : List Xml)
    (h : ∀ x ∈ xs, xrefFree x = true) : xrefFreeList xs = true := by
  induction xs with
  | nil => rfl
  | cons x rest ih =>
    show (xrefFree x && xrefFreeList rest) = true
    rw [h x (List.mem_cons_self _ _), ih (fun y hy => h y (List.mem_cons_of_mem _ hy))]
    rfl

theorem xrefFree_encodeName (p : JPerson) : xrefFree (encodeName p) = true := by
  unfold encodeName
  split
  · refine xrefFree_el _ _ _ (by decide) ?_
    rcases p.familyNames with _ | f <;> rcases p.givenNames with _ | g <;>
      by_cases h1 : optTruthy p.honorificPfx = true <;>
      by_cases h2 : optTruthy p.honorificSuffix = true <;>
      simp [h1, h2, xrefFreeList, xrefFree, xrefFreeList_append]
  · exact xrefFree_el _ _ _ (by decide) (by simp [xrefFreeList, xrefFree])

theorem xrefFree_encodeReference (r : RefItem) (st : List (String × String)) :
    xrefFree (encodeReference r st).1 = true := by
  cases r with
  | strRef s => exact xrefFree_el _ _ _ (by decide) rfl
  | work w =>
    simp only [encodeReference]
    refine xrefFree_el _ _ _ (by decide) ?_
    show (xrefFree (Xml.el "element-citation" [] _) && xrefFreeList []) = true
    rw [Bool.and_eq_true]
    refine ⟨xrefFree_el _ _ _ (by decide) ?_, rfl⟩
    rw [xrefFreeList_append, xrefFreeList_append, Bool.and_eq_true, Bool.and_eq_true]
    refine ⟨⟨?_, ?_⟩, ?_⟩
    · split <;> rfl
    · split
      · refine xrefFreeList_of_forall _ ?_
        intro x hx
        rcases List.mem_singleton.mp hx with rfl
        refine xrefFree_el _ _ _ (by decide) ?_
        refine xrefFreeList_of_forall _ ?_
        intro y hy
        obtain ⟨a, ha, hy'⟩ := List.mem_filterMap.mp hy
        rcases a with p | o
        · rw [← show encodeName p = y from by simpa using hy']
          exact xrefFree_encodeName p
        · simp at hy'
      · rfl
    · split
      all_goals first
        | rfl
        | (split <;> rfl)

theorem xrefFree_encodeReferencesFold (rs : List RefItem) :
    ∀ (st : List (String × String)),
    xrefFreeList (encodeReferencesFold rs st).1 = true := by
  induction rs with
  | nil => intro st; rfl
  | cons r rest ih =>
    intro st
    show xrefFreeList ((encodeReference r st).1
        :: (encodeReferencesFold rest (encodeReference r st).2).1) = true
    show (xrefFree (encodeReference r st).1 && _) = true
    rw [xrefFree_encodeReference r st, ih (encodeReference r st).2]
    rfl

theorem xrefFree_encodeReferences (refs : Option (List RefItem))
    (st : List (String × String)) :
    xrefFreeList (encodeReferences refs st).1 = true := by
  rcases refs with _ | rs
  · rfl
  · show xrefFreeList [Xml.el "ref-list" []
        (Xml.el "title" [] [Xml.txt "References"] :: (encodeReferencesFold rs st).1)] = true
    show (xrefFree _ && xrefFreeList []) = true
    rw [Bool.and_eq_true]
    refine ⟨xrefFree_el _ _ _ (by decide) ?_, rfl⟩
    show (xrefFree (Xml.el "title" [] [Xml.txt "References"]) && _) = true
    rw [Bool.and_eq_true]
    exact ⟨by decide, xrefFree_encodeReferencesFold rs st⟩

theorem xrefFree_encodeBody (content : List SNode) :
    xrefFree (encodeBody content) = true := by
  unfold encodeBody
  refine xrefFree_el _ _ _ (by decide) ?_
  refine xrefFreeList_map_sec _ ?_
  rw [encodeBodyLoop_flatten content []]
  exact xrefFree_jatsEncodeNodes content

theorem slotCount_encodeBody (rid : String) (content : List SNode)
    (h : containsCiteList rid content = true) :
    1 ≤ slotCount rid (encodeBody content) := by
  unfold encodeBody
  show 1 ≤ slotCountList rid ((encodeBodyLoop content []).map (fun s => Xml.el "sec" [] s))
  rw [slotCountList_map_sec, encodeBodyLoop_flatten content []]
  exact slotCount_jatsEncodeNodes rid content h

theorem lookupRef_append_single (st : List (String × String)) (r t rid : String) :
    lookupRef (st ++ [(r, t)]) rid
      = match lookupRef st rid with
        | some t' => some t'
        | none => if r = rid then some t else none := by
  unfold lookupRef
  rw [List.find?_append]
  rcases h : List.find? (fun kv => decide (kv.1 = rid)) st with _ | p
  · by_cases hr : r = rid <;> simp [Option.or, List.find?, hr, h]
  · simp [Option.or, h]

theorem encodeReference_lookup (rid : String) (r : RefItem)
    (st : List (String × String)) :
    lookupRef (encodeReference r st).2 rid
      = match refQualifies rid r with
        | some w =>
          (match lookupRef st rid with
           | some t => some t
           | none => some (encodeCitationText w))
        | none => lookupRef st rid := by
  cases r with
  | strRef s =>
    show lookupRef st rid = _
    cases h : lookupRef st rid <;> simp [refQualifies, h]
  | work w =>
    rcases hau : w.authors with _ | la
    · show lookupRef (encodeReference (.work w) st).2 rid = _
      simp only [encodeReference, refQualifies, hau]
      cases h : lookupRef st rid <;> simp [h]
    · rcases la with _ | ⟨a0, la'⟩
      · show lookupRef (encodeReference (.work w) st).2 rid = _
        simp only [encodeReference, refQualifies, hau]
        cases h : lookupRef st rid <;> simp [h]
      · rcases hid : w.id with _ | ridW
        · show lookupRef (encodeReference (.work w) st).2 rid = _
          simp only [encodeReference, refQualifies, hau, hid]
          cases h : lookupRef st rid <;> simp [h]
        · show lookupRef (encodeReference (.work w) st).2 rid = _
          simp only [encodeReference, refQualifies, hau, hid]
          by_cases hr : ridW = rid
          · subst hr
            by_cases hre : ridW = ""
            · subst hre
              rcases h : lookupRef st "" with _ | t <;>
                simp [h]
            · rcases h : lookupRef st ridW with _ | t <;>
                simp [hre, h, lookupRef_append_single]
          · by_cases hre : ridW = ""
            · subst hre
              rcases hlk : lookupRef st "" with _ | t0 <;>
                rcases h : lookupRef st rid with _ | t <;>
                simp [hr, hlk, h, lookupRef_append_single]
            · rcases hlk : lookupRef st ridW with _ | t0 <;>
                rcases h : lookupRef st rid with _ | t <;>
                simp [hre, hr, hlk, h, lookupRef_append_single]

theorem encodeReferencesFold_lookup (rid : String) (rs : List RefItem) :
    ∀ (st : List (String × String)),
    lookupRef (encodeReferencesFold rs st).2 rid
      = match lookupRef st rid with
        | some t => some t
        | none => (firstQualifiedRef rs rid).map encodeCitationText := by
  induction rs with
  | nil =>
    intro st
    show lookupRef st rid = _
    cases h : lookupRef st rid <;> simp [firstQualifiedRef, h]
  | cons r rest ih =>
    intro st
    show lookupRef (encodeReferencesFold rest (encodeReference r st).2).2 rid = _
    rw [ih, encodeReference_lookup]
    rcases hq : refQualifies rid r with _ | w <;>
      rcases hl : lookupRef st rid with _ | t <;>
      simp [firstQualifiedRef, List.findSome?_cons, hq, hl]

/-- The final references map of `encodeArticle`: citation text for
`rid` is recorded exactly when some reference qualifies, and it is the
first qualifying reference's generated citation text. -/
theorem encodeReferences_lookup (rid : String) (rs : List RefItem) :
    lookupRef (encodeReferences (some rs) []).2 rid
      = (firstQualifiedRef rs rid).map encodeCitationText := by
  show lookupRef (encodeReferencesFold rs []).2 rid = _
  rw [encodeReferencesFold_lookup]
  rfl

theorem xrefFree_front (t : String) :
    xrefFree (Xml.el "front" [] [Xml.el "article-meta" []
      [encodeTitleX t, Xml.el "contrib-group" [] []]]) = true := by
  refine xrefFree_el _ _ _ (by decide) ?_
  refine xrefFreeList_of_forall _ ?_
  intro x hx
  rcases List.mem_singleton.mp hx with rfl
  refine xrefFree_el _ _ _ (by decide) ?_
  unfold encodeTitleX
  refine xrefFreeList_of_forall _ ?_
  intro y hy
  rcases List.mem_cons.mp hy with rfl | hy'
  · exact xrefFree_el _ _ _ (by decide) (by simp [xrefFreeList, xrefFree])
  · rcases List.mem_singleton.mp hy' with rfl
    exact xrefFree_el _ _ _ (by decide) rfl

/-- C1 (amended).  JATS citation deferral: for every article whose
references contain a qualifying entry for `rid` — a `CreativeWork` with
that (non-empty) id and a non-empty `authors` list — every
`<xref ref-type="bibr">` element for `rid` in the final encoded
document carries the generated citation text of the first such
reference, even though all citations are encoded before any reference
is; and if the body cites `rid`, at least one such `<xref>` element is
present. -/
theorem jats_citation_deferral (a : JArticle) (rid : String) (w : JWork)
    (hw : firstQualifiedRef (a.references.getD []) rid = some w) :
    (∀ x ∈ collectBibrXrefs rid (encodeArticleXml a),
        x = Xml.el "xref" [("rid", rid), ("ref-type", "bibr")]
              [Xml.txt (encodeCitationText w)])
  ∧ (containsCiteList rid a.content = true →
        collectBibrXrefs rid (encodeArticleXml a) ≠ []) := by
  rcases hrefs : a.references with _ | rs
  · rw [hrefs] at hw
    simp [firstQualifiedRef] at hw
  · rw [hrefs] at hw
    have hw' : firstQualifiedRef rs rid = some w := by simpa using hw
    have hdoc : encodeArticleXml a
        = resolveCitations (lookupRef (encodeReferences (some rs) []).2)
            (Xml.el "article"
              [("xmlns:xlink", "http://www.w3.org/1999/xlink"),
               ("article-type", "research-article")]
              [Xml.el "front" [] [Xml.el "article-meta" []
                 [encodeTitleX a.title, Xml.el "contrib-group" [] []]],
               encodeBody a.content,
               Xml.el "back" [] (encodeReferences (some rs) []).1]) := by
      unfold encodeArticleXml
      rw [hrefs]
    have hlook : lookupRef (encodeReferences (some rs) []).2 rid
        = some (encodeCitationText w) := by
      rw [encodeReferences_lookup, hw']
      rfl
    have hf : xrefFree (Xml.el "front" [] [Xml.el "article-meta" []
        [encodeTitleX a.title, Xml.el "contrib-group" [] []]]) = true :=
      xrefFree_front a.title
    have hb : xrefFree (encodeBody a.content) = true := xrefFree_encodeBody a.content
    have hk : xrefFree (Xml.el "back" [] (encodeReferences (some rs) []).1) = true :=
      xrefFree_el _ _ _ (by decide) (xrefFree_encodeReferences (some rs) [])
    have hfree : xrefFree (Xml.el "article"
        [("xmlns:xlink", "http://www.w3.org/1999/xlink"),
         ("article-type", "research-article")]
        [Xml.el "front" [] [Xml.el "article-meta" []
           [encodeTitleX a.title, Xml.el "contrib-group" [] []]],
         encodeBody a.content,
         Xml.el "back" [] (encodeReferences (some rs) []).1]) = true := by
      refine xrefFree_el _ _ _ (by decide) ?_
      show (xrefFree _ && (xrefFree _ && (xrefFree _ && true))) = true
      rw [hf, hb, hk]
      rfl
    have hcollect : collectBibrXrefs rid (encodeArticleXml a)
        = List.replicate
            (slotCount rid (Xml.el "article"
              [("xmlns:xlink", "http://www.w3.org/1999/xlink"),
               ("article-type", "research-article")]
              [Xml.el "front" [] [Xml.el "article-meta" []
                 [encodeTitleX a.title, Xml.el "contrib-group" [] []]],
               encodeBody a.content,
               Xml.el "back" [] (encodeReferences (some rs) []).1]))
            (filledXref (lookupRef (encodeReferences (some rs) []).2) rid) := by
      rw [hdoc]
      exact collect_resolve _ rid _ hfree
    have hfill : filledXref (lookupRef (encodeReferences (some rs) []).2) rid
        = Xml.el "xref" [("rid", rid), ("ref-type", "bibr")]
            [Xml.txt (encodeCitationText w)] := by
      unfold filledXref
      rw [hlook]
    constructor
    · intro x hx
      rw [hcollect, hfill] at hx
      exact List.eq_of_mem_replicate hx
    · intro hcite
      have hbody1 : 1 ≤ slotCount rid (encodeBody a.content) :=
        slotCount_encodeBody rid a.content hcite
      have hslot : 1 ≤ slotCount rid (Xml.el "article"
          [("xmlns:xlink", "http://www.w3.org/1999/xlink"),
           ("article-type", "research-article")]
          [Xml.el "front" [] [Xml.el "article-meta" []
             [encodeTitleX a.title, Xml.el "contrib-group" [] []]],
           encodeBody a.content,
           Xml.el "back" [] (encodeReferences (some rs) []).1]) := by
        show 1 ≤ slotCountList rid [_, _, _]
        simp only [slotCountList]
        omega
      intro hnil
      rw [hcollect] at hnil
      have hlen := congrArg List.length hnil
      rw [List.length_replicate] at hlen
      simp at hlen
      omega

/-- Witness for C1 (amended), at a concrete article: the body cites
`bib1` before the references define it; the reference has three
authors and a 1990 publication date, so the final `<xref>` holds
"Smith et al., 1990". -/
theorem jats_citation_deferral_witness :
    collectBibrXrefs "bib1" (encodeArticleXml citedArticle) ≠ []
  ∧ ∀ x ∈ collectBibrXrefs "bib1" (encodeArticleXml citedArticle),
      x = Xml.el "xref" [("rid", "bib1"), ("ref-type", "bibr")]
            [Xml.txt "Smith et al., 1990"] := by
  have h := jats_citation_deferral citedArticle "bib1"
    { id := some "bib1",
      title := some "A title",
      authors := some
        [.person { familyNames := some ["Smith"] },
         .person { familyNames := some ["Jones"] },
         .person { familyNames := some ["Lee"] }],
      datePublished := some "1990-01-01" } rfl
  refine ⟨h.2 rfl, ?_⟩
  intro x hx
  have := h.1 x hx
  rw [this]
  rfl

/-- Counterexample to C1 as stated: the references include an entry
with id `bib1`, but with no authors no citation text is ever recorded
for it, and the final `<xref>` for the citation is left empty. -/
theorem jats_citation_deferral_cex :
    collectBibrXrefs "bib1" (encodeArticleXml authorlessArticle)
      = [Xml.el "xref" [("rid", "bib1"), ("ref-type", "bibr")] []] := rfl

end Encoda
